import Mathlib

/-!
Verification of the Atmosify DB-first playlist pipeline (TypeScript sources
under functions/src) against its natural-language specification.

The TypeScript data model and the pure logic of each pipeline stage are
shallowly embedded as executable Lean definitions.  External collaborators
(the Firestore document store, the Apple Music catalog API, the Gemini and
Perplexity generative services) are modelled as explicit inputs: a lookup
function models the batch-lookup result map, an `Except`/`Option` value
models a generative call's outcome, and store records are passed in as data.
JavaScript numbers are modelled as exact values (`Nat`/`Int`/`Rat`); where a
floating-point operation is semantically visible (`Math.floor(targetCount *
0.70)` in the assembler) the IEEE-754 double computation is reproduced
exactly with integer arithmetic.
-/

namespace Atmosify

/-! ## Data model (functions/src/lib/types.ts)

Numeric fields typed `number` in TypeScript are modelled as `Nat` (counts,
durations, identifiers-by-convention), `Int` (positions coming back from the
generative service, which are untrusted), or `Rat` (relevance scores in
[0,1] and quality scores, which are compared but never rounded).
Field names follow the source. -/

/-- PlaylistIntent from types.ts: the structured user request. -/
structure PlaylistIntent where
  description : String
  genres : List String
  subGenres : List String
  moods : List String
  vibeKeywords : List String
  energyRange : Nat × Nat
  targetDurationMinutes : Nat
  targetTrackCount : Option Nat
  artistPreferences : List String
  excludeArtists : List String
  eraPreference : Option String
deriving DecidableEq

/-- TrackCandidate from types.ts: a catalog row eligible for selection.
Optional enrichment fields model the TypeScript optional (`?`) fields;
`Option` models `null` for nullable fields. -/
structure TrackCandidate where
  docId : String
  Artist : String
  track_Title : String
  album : String
  am_duration_ms : Option Nat
  Apple_Music_ID : String
  Apple_Music_URL : Option String
  FINAL_SCORE : Option Rat
  artistRelevance : Rat
  artistGenreContext : String
  atmos_mood : Option String
  atmos_energy : Option Nat
  atmos_vibe : Option (List String)
  atmos_tempo_estimate : Option Nat
deriving DecidableEq

/-- PlaylistDraftTrack from types.ts: a curator-selected track with its
assigned position.  The position comes back from the generative service as
an arbitrary integer, hence `Int`. -/
structure PlaylistDraftTrack where
  docId : String
  Artist : String
  track_Title : String
  album : String
  Apple_Music_ID : String
  Apple_Music_URL : Option String
  am_duration_ms : Option Nat
  FINAL_SCORE : Option Rat
  atmos_mood : Option String
  atmos_energy : Option Nat
  selectionRationale : String
  position : Int
deriving DecidableEq

/-- PlaylistDraft from types.ts. -/
structure PlaylistDraft where
  tracks : List PlaylistDraftTrack
  unusedCandidates : List TrackCandidate
deriving DecidableEq

/-- VerifiedTrack from types.ts: a draft track re-confirmed against the
external catalog. -/
structure VerifiedTrack where
  docId : String
  Artist : String
  track_Title : String
  album : String
  Apple_Music_ID : String
  Apple_Music_URL : Option String
  durationMs : Nat
  durationEstimated : Bool
  atmosVerified : Bool
  atmosWarning : Bool
  atmos_mood : Option String
  atmos_energy : Option Nat
  FINAL_SCORE : Option Rat
deriving DecidableEq

/-- Model of JavaScript `String.prototype.toLowerCase` for the ASCII names
this codebase compares (artist names and identifiers).  Definitionally the
same mapping as Lean's own `String.toLower`, spelled out so that it reduces
inside the kernel on concrete strings. -/
def jsToLower (s : String) : String := String.mk (s.data.map Char.toLower)

/-! ## Assembler: final diversity enforcement (assembler.ts, enforceArtistDiversity)

The source keeps a `Map` from lowercased artist name to a running count and
only admits a track while the count is below the per-artist cap.  The map
entry for a key always equals the number of already-admitted tracks with
that key, so the embedding recomputes the count from the accumulator
(`List.countP`) instead of threading the map. -/

/-- Number of tracks in `l` whose artist, lowercased, is `key` (the source
compares `track.Artist.toLowerCase()` against map keys). -/
def countArtistKey (l : List VerifiedTrack) (key : String) : Nat :=
  l.countP (fun t => jsToLower t.Artist == key)

/-- The loop of enforceArtistDiversity (assembler.ts lines 199-225):
`acc` holds the admitted tracks in reverse order. -/
def enforceArtistDiversityGo (intent : PlaylistIntent) (targetCount : Nat) :
    List VerifiedTrack → List VerifiedTrack → List VerifiedTrack
  | [], acc => acc.reverse
  | t :: rest, acc =>
    if targetCount ≤ acc.length then acc.reverse
    else
      let artistKey := jsToLower t.Artist
      if artistKey ∈ intent.excludeArtists.map jsToLower then
        enforceArtistDiversityGo intent targetCount rest acc
      else
        let maxPerArtist : Nat :=
          if artistKey ∈ intent.artistPreferences.map jsToLower then 5 else 3
        if maxPerArtist ≤ countArtistKey acc artistKey then
          enforceArtistDiversityGo intent targetCount rest acc
        else
          enforceArtistDiversityGo intent targetCount rest (t :: acc)

/-- enforceArtistDiversity (assembler.ts lines 199-225): admit tracks in
order while the per-artist count stays below the cap (3, or 5 for preferred
artists), skip excluded artists, stop at the target count. -/
def enforceArtistDiversity (tracks : List VerifiedTrack) (intent : PlaylistIntent)
    (targetCount : Nat) : List VerifiedTrack :=
  enforceArtistDiversityGo intent targetCount tracks []

/-- The per-artist cap the loop applies to a lowercased artist key. -/
def artistCap (intent : PlaylistIntent) (key : String) : Nat :=
  if key ∈ intent.excludeArtists.map jsToLower then 0
  else if key ∈ intent.artistPreferences.map jsToLower then 5 else 3

theorem countArtistKey_cons (t : VerifiedTrack) (l : List VerifiedTrack) (key : String) :
    countArtistKey (t :: l) key =
      countArtistKey l key + (if jsToLower t.Artist == key then 1 else 0) := by
  simp only [countArtistKey, List.countP_cons]

theorem countArtistKey_reverse (l : List VerifiedTrack) (key : String) :
    countArtistKey l.reverse key = countArtistKey l key := by
  simp [countArtistKey]

/-- Loop invariant: if every artist key's count in the accumulator respects
its cap, the loop's output respects it too. -/
theorem enforceArtistDiversityGo_cap (intent : PlaylistIntent) (targetCount : Nat)
    (key : String) :
    ∀ (rest acc : List VerifiedTrack),
      countArtistKey acc key ≤ artistCap intent key →
      countArtistKey (enforceArtistDiversityGo intent targetCount rest acc) key ≤
        artistCap intent key := by
  intro rest
  induction rest with
  | nil =>
    intro acc h
    simp only [enforceArtistDiversityGo]
    rw [countArtistKey_reverse]
    exact h
  | cons t rest ih =>
    intro acc h
    simp only [enforceArtistDiversityGo]
    by_cases hfull : targetCount ≤ acc.length
    · rw [if_pos hfull, countArtistKey_reverse]; exact h
    · rw [if_neg hfull]
      by_cases hexcl : jsToLower t.Artist ∈ intent.excludeArtists.map jsToLower
      · rw [if_pos hexcl]; exact ih acc h
      · rw [if_neg hexcl]
        by_cases hcapped :
            (if jsToLower t.Artist ∈ intent.artistPreferences.map jsToLower then 5 else 3) ≤
              countArtistKey acc (jsToLower t.Artist)
        · rw [if_pos hcapped]; exact ih acc h
        · rw [if_neg hcapped]
          apply ih
          rw [countArtistKey_cons]
          by_cases hkey : jsToLower t.Artist = key
          · have hnotexcl : key ∉ intent.excludeArtists.map jsToLower := by
              rw [← hkey]; exact hexcl
            push_neg at hcapped
            rw [hkey] at hcapped
            by_cases hpref : key ∈ intent.artistPreferences.map jsToLower
            · rw [artistCap, if_neg hnotexcl, if_pos hpref]
              rw [if_pos hpref] at hcapped
              simp only [hkey, beq_self_eq_true, if_true]
              omega
            · rw [artistCap, if_neg hnotexcl, if_neg hpref]
              rw [if_neg hpref] at hcapped
              simp only [hkey, beq_self_eq_true, if_true]
              omega
          · have hkeyb : (jsToLower t.Artist == key) = false := by
              simpa using hkey
            simpa [hkeyb] using h

/-- C2: in every final Result's track list, a non-preferred artist has at
most 3 tracks, a preferred artist at most 5, and an excluded artist 0,
all compared case-insensitively.  The final track list of `assemblePlaylist`
is always the output of `enforceArtistDiversity`. -/
theorem final_result_artist_diversity (tracks : List VerifiedTrack)
    (intent : PlaylistIntent) (targetCount : Nat) (a : String) :
    (jsToLower a ∈ intent.excludeArtists.map jsToLower →
      countArtistKey (enforceArtistDiversity tracks intent targetCount) (jsToLower a) = 0)
    ∧ (jsToLower a ∈ intent.artistPreferences.map jsToLower →
      countArtistKey (enforceArtistDiversity tracks intent targetCount) (jsToLower a) ≤ 5)
    ∧ (jsToLower a ∉ intent.artistPreferences.map jsToLower →
      countArtistKey (enforceArtistDiversity tracks intent targetCount) (jsToLower a) ≤ 3) := by
  have hstart : countArtistKey [] (jsToLower a) ≤ artistCap intent (jsToLower a) := by
    simp [countArtistKey]
  have hcap := enforceArtistDiversityGo_cap intent targetCount (jsToLower a) tracks [] hstart
  rw [show enforceArtistDiversityGo intent targetCount tracks [] =
        enforceArtistDiversity tracks intent targetCount from rfl] at hcap
  refine ⟨?_, ?_, ?_⟩
  · intro hexcl
    rw [artistCap, if_pos hexcl] at hcap
    omega
  · intro hpref
    by_cases hexcl : (jsToLower a) ∈ intent.excludeArtists.map jsToLower
    · rw [artistCap, if_pos hexcl] at hcap; omega
    · rw [artistCap, if_neg hexcl, if_pos hpref] at hcap; omega
  · intro hpref
    by_cases hexcl : (jsToLower a) ∈ intent.excludeArtists.map jsToLower
    · rw [artistCap, if_pos hexcl] at hcap; omega
    · rw [artistCap, if_neg hexcl, if_neg hpref] at hcap; omega

/-- A concrete intent used to instantiate hypothesised theorems. -/
def sampleIntent : PlaylistIntent :=
  { description := "chill late-night RnB, warm and introspective, 20 minutes"
    genres := ["R&B"]
    subGenres := []
    moods := ["chill"]
    vibeKeywords := ["warm"]
    energyRange := (2, 5)
    targetDurationMinutes := 20
    targetTrackCount := none
    artistPreferences := ["SZA"]
    excludeArtists := ["Drake"]
    eraPreference := none }

/-- Witness for the diversity theorem at a concrete input. -/
theorem final_result_artist_diversity_witness :
    jsToLower "drake" ∈ sampleIntent.excludeArtists.map jsToLower
    ∧ countArtistKey (enforceArtistDiversity [] sampleIntent 10) (jsToLower "drake") = 0 :=
  ⟨by decide, (final_result_artist_diversity [] sampleIntent 10 "drake").1 (by decide)⟩

/-! ## Target track count (curator.ts lines 206-209, orchestrator.ts lines 49-53,
assembler.ts lines 128-129)

All three sites compute
`intent.targetTrackCount ?? Math.max(10, Math.round(minutes * 60_000 / 240_000))`.
For a whole number of minutes the JavaScript float arithmetic is exact:
`minutes * 60000 / 240000` is the dyadic rational `minutes / 4`, and
`Math.round(x) = Math.floor(x + 0.5)` with `x + 0.5 = (minutes + 2) / 4`
exactly, so the whole expression equals `(minutes + 2) / 4` in natural
division. -/

/-- The shared target-count computation. -/
def pipelineTargetCount (intent : PlaylistIntent) : Nat :=
  match intent.targetTrackCount with
  | some n => n
  | none => max 10 ((intent.targetDurationMinutes + 2) / 4)

/-- C5 (amended): with no explicit target count, the target is the
duration-derived count `round(minutes·60000/240000)` — the 4-minute average
item length — but floored at a minimum of 10 tracks. -/
theorem pipelineTargetCount_duration_derived (intent : PlaylistIntent)
    (h : intent.targetTrackCount = none) :
    (pipelineTargetCount intent : ℤ) =
      max 10 (round ((intent.targetDurationMinutes : ℚ) * 60000 / 240000)) := by
  have hq : (intent.targetDurationMinutes : ℚ) * 60000 / 240000 =
      (intent.targetDurationMinutes : ℚ) / 4 := by
    ring
  rw [pipelineTargetCount, h, hq]
  have hround : round ((intent.targetDurationMinutes : ℚ) / 4) =
      (((intent.targetDurationMinutes + 2) / 4 : ℕ) : ℤ) := by
    rw [round_eq]
    have harg : (intent.targetDurationMinutes : ℚ) / 4 + 1 / 2 =
        ((intent.targetDurationMinutes + 2 : ℕ) : ℚ) / 4 := by
      push_cast
      ring
    rw [harg, ← Int.natCast_floor_eq_floor (by positivity), Nat.floor_div_ofNat,
      Nat.floor_natCast]
  rw [hround, Nat.cast_max]
  norm_num

/-- Witness for the duration-derived target count: at the spec's 20-minute
scenario the pipeline's target is 10 items, the bound `max 10` dominating
the ≈5 duration-derived value. -/
theorem pipelineTargetCount_duration_derived_witness :
    (pipelineTargetCount sampleIntent : ℤ) =
      max 10 (round ((20 : ℚ) * 60000 / 240000)) :=
  pipelineTargetCount_duration_derived sampleIntent rfl

/-- C5 counterexample: for a 20-minute target duration and no explicit count
the pipeline targets 10 items, not approximately 5 — the `Math.max(10, …)`
floor overrides the duration-derived value. -/
theorem pipelineTargetCount_twenty_minutes_not_five :
    pipelineTargetCount sampleIntent = 10 ∧ (10 : ℕ) ≠ 5 := by
  constructor
  · rfl
  · decide

/-! ## The assembler's gap-fill threshold (assembler.ts lines 20, 136-138)

The source computes `Math.floor(targetCount * 0.70)`.  The IEEE-754 double
nearest 0.70 is `3152519739159347 / 2^52`, slightly below 7/10; the
multiplication rounds the exact product `targetCount * 3152519739159347 /
2^52` to 53 significant bits (round-to-nearest, ties-to-even) and
`Math.floor` then truncates.  `roundToDouble53` reproduces that rounding
with exact integer arithmetic (the product of a Nat and the 0.70 mantissa is
an exact integer scaled by 2^52, so a single rounding step occurs, exactly
as in the JavaScript multiplication).  For most counts the result equals
`7 * targetCount / 10` rounded down, but e.g. for `targetCount = 90` the
product rounds to just below 63 and the floor is 62 — exactly what
JavaScript computes. -/

/-- Bit length of a natural number, with explicit fuel so that it reduces
inside the kernel; `bitLen128 n` is exact for every `n < 2^128`, far beyond
any product the pipeline computes. -/
def bitLenAux : Nat → Nat → Nat
  | 0, _ => 0
  | fuel + 1, n => if n = 0 then 0 else bitLenAux fuel (n / 2) + 1

/-- Bit length for inputs below 2^128. -/
def bitLen128 (n : Nat) : Nat := bitLenAux 128 n

/-- Round a nonnegative integer to 53 significant bits, ties to even: the
IEEE-754 double value of an exact integer (exact for inputs below 2^128). -/
def roundToDouble53 (p : Nat) : Nat :=
  if p < 2 ^ 53 then p
  else
    let s := bitLen128 p - 53
    let q := p / 2 ^ s
    let r := p % 2 ^ s
    let half := 2 ^ (s - 1)
    let q' := if half < r ∨ (r = half ∧ q % 2 = 1) then q + 1 else q
    q' * 2 ^ s

/-- The integer significand of the IEEE-754 double nearest 0.70, scaled by
2^52: `0.70 = 3152519739159347 / 2^52` up to the representation error. -/
def double07Num : Nat := 3152519739159347

/-- Model of the JavaScript expression `Math.floor(t * 0.70)`. -/
def mathFloorTimes07 (t : Nat) : Nat :=
  roundToDouble53 (t * double07Num) / 2 ^ 52

/-! ## Apple Music lookup results (lib/appleMusic.ts)

`AppleLookupResult` is the per-identifier entry of the map that
`batchLookupAppleTracks` returns; the verifier consumes that map through a
plain lookup function `String → Option AppleLookupResult` (a missing key
models `Map.get` returning `undefined`). -/

/-- The attribute record an Apple Music song item carries.  Only the fields
the pipeline reads are modelled; `Option` models fields that may be absent
from the JSON payload. -/
structure AppleTrackAttrs where
  name : String
  artistName : String
  albumName : String
  audioVariants : Option (List String)
  durationInMillis : Option Nat
  url : Option String
deriving DecidableEq

/-- AppleLookupResult from lib/appleMusic.ts. -/
structure AppleLookupResult where
  id : String
  found : Bool
  hasAtmos : Bool
  durationMs : Option Nat
  url : Option String
  attrs : Option AppleTrackAttrs
deriving DecidableEq

/-- The `notFound` record of batchLookupAppleTracks. -/
def notFoundResult (id : String) : AppleLookupResult :=
  { id := id, found := false, hasAtmos := false, durationMs := none, url := none,
    attrs := none }

/-! ## External verifier (verifier.ts, bundled at the end of orchestrator.ts)

`verifyPlaylist` walks the draft in order: a track whose Apple Music
identifier has no `found` lookup entry goes to `removedDocIds`; a found
track becomes a `VerifiedTrack`, with `atmosWarning` set when the Atmos flag
is missing.  The running counters always equal the counts over the verified
list, so the embedding recomputes them with `countP`. -/

/-- Default duration used when Apple Music returns no real value (4 min). -/
def DEFAULT_DURATION_MS : Nat := 240000

/-- Build the VerifiedTrack for a draft track whose lookup succeeded
(verifier.ts lines 294-329). -/
def verifiedOfDraft (t : PlaylistDraftTrack) (r : AppleLookupResult) : VerifiedTrack :=
  { docId := t.docId
    Artist := t.Artist
    track_Title := t.track_Title
    album := t.album
    Apple_Music_ID := t.Apple_Music_ID
    Apple_Music_URL := match r.url with | some u => some u | none => t.Apple_Music_URL
    durationMs := r.durationMs.getD DEFAULT_DURATION_MS
    durationEstimated := r.durationMs.isNone
    atmosVerified := r.hasAtmos
    atmosWarning := !r.hasAtmos
    atmos_mood := t.atmos_mood
    atmos_energy := t.atmos_energy
    FINAL_SCORE := t.FINAL_SCORE }

/-- The verification loop: (verified tracks, removed docIds), in draft order. -/
def verifyTracks (lookup : String → Option AppleLookupResult) :
    List PlaylistDraftTrack → List VerifiedTrack × List String
  | [] => ([], [])
  | t :: rest =>
    let res := verifyTracks lookup rest
    match lookup t.Apple_Music_ID with
    | none => (res.1, t.docId :: res.2)
    | some r =>
      if r.found then (verifiedOfDraft t r :: res.1, res.2)
      else (res.1, t.docId :: res.2)

/-- VerifierResult from verifier.ts. -/
structure VerifierResult where
  verifiedTracks : List VerifiedTrack
  removedDocIds : List String
  atmosVerifiedCount : Nat
  atmosWarningCount : Nat
deriving DecidableEq

/-- verifyPlaylist (verifier.ts lines 258-349), with the batch-lookup result
map passed in as `lookup`. -/
def verifyPlaylist (draft : PlaylistDraft) (lookup : String → Option AppleLookupResult) :
    VerifierResult :=
  let res := verifyTracks lookup draft.tracks
  { verifiedTracks := res.1
    removedDocIds := res.2
    atmosVerifiedCount := res.1.countP (fun v => v.atmosVerified)
    atmosWarningCount := res.1.countP (fun v => v.atmosWarning) }

theorem verifyTracks_cons_none (lookup : String → Option AppleLookupResult)
    (t : PlaylistDraftTrack) (rest : List PlaylistDraftTrack)
    (h : lookup t.Apple_Music_ID = none) :
    verifyTracks lookup (t :: rest) =
      ((verifyTracks lookup rest).1, t.docId :: (verifyTracks lookup rest).2) := by
  simp [verifyTracks, h]

theorem verifyTracks_cons_found (lookup : String → Option AppleLookupResult)
    (t : PlaylistDraftTrack) (rest : List PlaylistDraftTrack) (r : AppleLookupResult)
    (h : lookup t.Apple_Music_ID = some r) (hf : r.found = true) :
    verifyTracks lookup (t :: rest) =
      (verifiedOfDraft t r :: (verifyTracks lookup rest).1, (verifyTracks lookup rest).2) := by
  simp [verifyTracks, h, hf]

theorem verifyTracks_cons_notfound (lookup : String → Option AppleLookupResult)
    (t : PlaylistDraftTrack) (rest : List PlaylistDraftTrack) (r : AppleLookupResult)
    (h : lookup t.Apple_Music_ID = some r) (hf : r.found = false) :
    verifyTracks lookup (t :: rest) =
      ((verifyTracks lookup rest).1, t.docId :: (verifyTracks lookup rest).2) := by
  simp [verifyTracks, h, hf]

theorem verifyTracks_mem_source (lookup : String → Option AppleLookupResult) :
    ∀ (l : List PlaylistDraftTrack) (v : VerifiedTrack),
      v ∈ (verifyTracks lookup l).1 →
      ∃ u ∈ l, ∃ r, lookup u.Apple_Music_ID = some r ∧ r.found = true ∧
        v = verifiedOfDraft u r := by
  intro l
  induction l with
  | nil => intro v hv; simp [verifyTracks] at hv
  | cons t rest ih =>
    intro v hv
    cases hl : lookup t.Apple_Music_ID with
    | none =>
      rw [verifyTracks_cons_none lookup t rest hl] at hv
      obtain ⟨u, hu, hr⟩ := ih v hv
      exact ⟨u, List.mem_cons_of_mem _ hu, hr⟩
    | some r =>
      by_cases hf : r.found
      · rw [verifyTracks_cons_found lookup t rest r hl hf] at hv
        rcases List.mem_cons.mp hv with hveq | hvmem
        · exact ⟨t, List.mem_cons_self _ _, r, hl, hf, hveq⟩
        · obtain ⟨u, hu, hr⟩ := ih v hvmem
          exact ⟨u, List.mem_cons_of_mem _ hu, hr⟩
      · rw [verifyTracks_cons_notfound lookup t rest r hl (by simpa using hf)] at hv
        obtain ⟨u, hu, hr⟩ := ih v hv
        exact ⟨u, List.mem_cons_of_mem _ hu, hr⟩

theorem verifyTracks_removed_of_not_found (lookup : String → Option AppleLookupResult) :
    ∀ (l : List PlaylistDraftTrack) (t : PlaylistDraftTrack), t ∈ l →
      (∀ r, lookup t.Apple_Music_ID = some r → r.found = false) →
      t.docId ∈ (verifyTracks lookup l).2 := by
  intro l
  induction l with
  | nil => intro t ht; simp at ht
  | cons u rest ih =>
    intro t ht hnf
    rcases List.mem_cons.mp ht with rfl | htm
    · cases hl : lookup t.Apple_Music_ID with
      | none =>
        rw [verifyTracks_cons_none lookup t rest hl]
        exact List.mem_cons_self _ _
      | some r =>
        rw [verifyTracks_cons_notfound lookup t rest r hl (hnf r hl)]
        exact List.mem_cons_self _ _
    · cases hl : lookup u.Apple_Music_ID with
      | none =>
        rw [verifyTracks_cons_none lookup u rest hl]
        exact List.mem_cons_of_mem _ (ih t htm hnf)
      | some r =>
        by_cases hf : r.found
        · rw [verifyTracks_cons_found lookup u rest r hl hf]
          exact ih t htm hnf
        · rw [verifyTracks_cons_notfound lookup u rest r hl (by simpa using hf)]
          exact List.mem_cons_of_mem _ (ih t htm hnf)

theorem verifyTracks_mem_of_found (lookup : String → Option AppleLookupResult) :
    ∀ (l : List PlaylistDraftTrack) (t : PlaylistDraftTrack) (r : AppleLookupResult),
      t ∈ l → lookup t.Apple_Music_ID = some r → r.found = true →
      verifiedOfDraft t r ∈ (verifyTracks lookup l).1 := by
  intro l
  induction l with
  | nil => intro t r ht; simp at ht
  | cons u rest ih =>
    intro t r ht hl hf
    rcases List.mem_cons.mp ht with rfl | htm
    · rw [verifyTracks_cons_found lookup t rest r hl hf]
      exact List.mem_cons_self _ _
    · cases hl' : lookup u.Apple_Music_ID with
      | none =>
        rw [verifyTracks_cons_none lookup u rest hl']
        exact ih t r htm hl hf
      | some r' =>
        by_cases hf' : r'.found
        · rw [verifyTracks_cons_found lookup u rest r' hl' hf']
          exact List.mem_cons_of_mem _ (ih t r htm hl hf)
        · rw [verifyTracks_cons_notfound lookup u rest r' hl' (by simpa using hf')]
          exact ih t r htm hl hf

/-- C1 (amended, verifier part): a selected track whose Apple Music
identifier is missing from the lookup map or marked not-found is recorded in
removedDocIds and never retained among the verified tracks; a found track
without the Atmos flag is retained with atmosWarning = true.  (Whether it
survives into the final Result is further subject to the assembler's
diversity cap — see the counterexample.) -/
theorem verifyPlaylist_drop_and_warn (draft : PlaylistDraft)
    (lookup : String → Option AppleLookupResult) (t : PlaylistDraftTrack)
    (ht : t ∈ draft.tracks)
    (hnodup : (draft.tracks.map PlaylistDraftTrack.docId).Nodup) :
    ((∀ r, lookup t.Apple_Music_ID = some r → r.found = false) →
        t.docId ∈ (verifyPlaylist draft lookup).removedDocIds
        ∧ ∀ v ∈ (verifyPlaylist draft lookup).verifiedTracks, v.docId ≠ t.docId)
    ∧ (∀ r, lookup t.Apple_Music_ID = some r → r.found = true → r.hasAtmos = false →
        ∃ v ∈ (verifyPlaylist draft lookup).verifiedTracks,
          v.docId = t.docId ∧ v.atmosWarning = true) := by
  constructor
  · intro hnf
    constructor
    · exact verifyTracks_removed_of_not_found lookup draft.tracks t ht hnf
    · intro v hv heq
      obtain ⟨u, hu, r, hl, hf, hveq⟩ :=
        verifyTracks_mem_source lookup draft.tracks v hv
      have hdoc : u.docId = t.docId := by
        rw [hveq] at heq
        exact heq
      have : u = t :=
        List.inj_on_of_nodup_map hnodup hu ht hdoc
      rw [this] at hl
      have := hnf r hl
      rw [this] at hf
      exact Bool.false_ne_true hf
  · intro r hl hf hatmos
    refine ⟨verifiedOfDraft t r, verifyTracks_mem_of_found lookup draft.tracks t r ht hl hf,
      rfl, ?_⟩
    simp [verifiedOfDraft, hatmos]

/-! ## Assembler: gap-fill and final assembly (assembler.ts) -/

/-- The mini-draft built from the unused pool (assembler.ts lines 51-67):
candidates become draft tracks with rationale "Gap fill" and 1-based
positions. -/
def gapFillDraftTracks (pool : List TrackCandidate) : List PlaylistDraftTrack :=
  pool.enum.map fun p =>
    { docId := p.2.docId
      Artist := p.2.Artist
      track_Title := p.2.track_Title
      album := p.2.album
      Apple_Music_ID := p.2.Apple_Music_ID
      Apple_Music_URL := p.2.Apple_Music_URL
      am_duration_ms := p.2.am_duration_ms
      FINAL_SCORE := p.2.FINAL_SCORE
      atmos_mood := p.2.atmos_mood
      atmos_energy := p.2.atmos_energy
      selectionRationale := "Gap fill"
      position := (p.1 : Int) + 1 }

/-- gapFillFromPool (assembler.ts lines 38-74): take up to 3× the shortfall
from the unused pool, re-run verification on that mini-draft, and return at
most `needed` verified tracks. -/
def gapFillFromPool (unused : List TrackCandidate)
    (lookup : String → Option AppleLookupResult) (needed : Nat) : List VerifiedTrack :=
  if unused.isEmpty then []
  else
    let fillDraft : PlaylistDraft :=
      { tracks := gapFillDraftTracks (unused.take (needed * 3)), unusedCandidates := [] }
    ((verifyPlaylist fillDraft lookup).verifiedTracks).take needed

/-- mergeVerifiedTracks (assembler.ts lines 99-106): append only fill tracks
whose docId is not already present. -/
def mergeVerifiedTracks (primary fill : List VerifiedTrack) : List VerifiedTrack :=
  primary ++ fill.filter (fun t => !((primary.map VerifiedTrack.docId).contains t.docId))

/-- AssemblerInput from assembler.ts (the `draft` field is carried by the
source but never read by `assemblePlaylist` beyond `unusedCandidates`, which
is passed separately, so it is omitted). -/
structure AssemblerInput where
  intent : PlaylistIntent
  verified : List VerifiedTrack
  unusedCandidates : List TrackCandidate
deriving DecidableEq

/-- The playlist fields of AtmosPlaylist computed by assemblePlaylist; the
title/description strings and pass-through build metadata carry no verified
content and are omitted. -/
structure AtmosPlaylistModel where
  tracks : List VerifiedTrack
  totalDurationMs : Nat
  atmosVerifiedCount : Nat
  atmosWarningCount : Nat
deriving DecidableEq

/-- assemblePlaylist (assembler.ts lines 116-193): gap-fill when the
verified count is below `Math.floor(targetCount * 0.70)`, then enforce
artist diversity and compute the totals. -/
def assemblePlaylist (input : AssemblerInput)
    (lookup : String → Option AppleLookupResult) : AtmosPlaylistModel :=
  let targetCount := pipelineTargetCount input.intent
  let minRequired := mathFloorTimes07 targetCount
  let verifiedTracks :=
    if input.verified.length < minRequired then
      mergeVerifiedTracks input.verified
        (gapFillFromPool input.unusedCandidates lookup (targetCount - input.verified.length))
    else input.verified
  let finalTracks := enforceArtistDiversity verifiedTracks input.intent targetCount
  { tracks := finalTracks
    totalDurationMs := (finalTracks.map VerifiedTrack.durationMs).sum
    atmosVerifiedCount := finalTracks.countP (fun t => t.atmosVerified)
    atmosWarningCount := finalTracks.countP (fun t => t.atmosWarning) }

theorem enforceArtistDiversityGo_sublist (intent : PlaylistIntent) (targetCount : Nat) :
    ∀ (rest acc : List VerifiedTrack),
      ∃ s, enforceArtistDiversityGo intent targetCount rest acc = acc.reverse ++ s ∧
        s.Sublist rest := by
  intro rest
  induction rest with
  | nil =>
    intro acc
    exact ⟨[], by simp [enforceArtistDiversityGo], List.Sublist.refl []⟩
  | cons t rest ih =>
    intro acc
    simp only [enforceArtistDiversityGo]
    by_cases hfull : targetCount ≤ acc.length
    · rw [if_pos hfull]
      exact ⟨[], by simp, List.nil_sublist _⟩
    · rw [if_neg hfull]
      by_cases hexcl : jsToLower t.Artist ∈ intent.excludeArtists.map jsToLower
      · rw [if_pos hexcl]
        obtain ⟨s, hs, hsub⟩ := ih acc
        exact ⟨s, hs, hsub.cons t⟩
      · rw [if_neg hexcl]
        by_cases hcapped :
            (if jsToLower t.Artist ∈ intent.artistPreferences.map jsToLower then 5 else 3) ≤
              countArtistKey acc (jsToLower t.Artist)
        · rw [if_pos hcapped]
          obtain ⟨s, hs, hsub⟩ := ih acc
          exact ⟨s, hs, hsub.cons t⟩
        · rw [if_neg hcapped]
          obtain ⟨s, hs, hsub⟩ := ih (t :: acc)
          refine ⟨t :: s, ?_, hsub.cons₂ t⟩
          rw [hs]
          simp

/-- The final diversity pass only reorders nothing: its output is a sublist
of its input. -/
theorem enforceArtistDiversity_sublist (tracks : List VerifiedTrack)
    (intent : PlaylistIntent) (targetCount : Nat) :
    (enforceArtistDiversity tracks intent targetCount).Sublist tracks := by
  obtain ⟨s, hs, hsub⟩ := enforceArtistDiversityGo_sublist intent targetCount tracks []
  rw [enforceArtistDiversity, hs]
  simpa using hsub

/-- C3 (amended): gap-fill happens iff the verified count is strictly below
`Math.floor(0.70 · targetCount)` (the floating-point floor, not the exact
70% mark): when it is not, every final track comes from the incoming
verified list; when it is, every final track either comes from the verified
list or was drawn from the first 3×shortfall unused candidates, re-verified
through the external lookup, and carries a docId not already verified; and
at most `targetCount − verified` gap-fill tracks are merged in. -/
theorem assemblePlaylist_gapFill_law (input : AssemblerInput)
    (lookup : String → Option AppleLookupResult) :
    (mathFloorTimes07 (pipelineTargetCount input.intent) ≤ input.verified.length →
        ∀ t ∈ (assemblePlaylist input lookup).tracks, t ∈ input.verified)
    ∧ (input.verified.length < mathFloorTimes07 (pipelineTargetCount input.intent) →
        ∀ t ∈ (assemblePlaylist input lookup).tracks,
          t ∈ input.verified ∨
            (t ∈ (verifyPlaylist
                { tracks := gapFillDraftTracks
                    (input.unusedCandidates.take
                      ((pipelineTargetCount input.intent - input.verified.length) * 3))
                  unusedCandidates := [] } lookup).verifiedTracks
              ∧ t.docId ∉ input.verified.map VerifiedTrack.docId))
    ∧ (input.verified.length < mathFloorTimes07 (pipelineTargetCount input.intent) →
        ((assemblePlaylist input lookup).tracks.filter
            (fun t => !((input.verified.map VerifiedTrack.docId).contains t.docId))).length ≤
          pipelineTargetCount input.intent - input.verified.length) := by
  set target := pipelineTargetCount input.intent with htarget
  set needed := target - input.verified.length with hneeded
  refine ⟨?_, ?_, ?_⟩
  · intro hge t htmem
    have hcond : ¬ (input.verified.length < mathFloorTimes07 target) := by omega
    simp only [assemblePlaylist, if_neg hcond] at htmem
    exact (enforceArtistDiversity_sublist input.verified input.intent target).subset htmem
  · intro hlt t htmem
    simp only [assemblePlaylist, if_pos hlt] at htmem
    have hmerged :=
      (enforceArtistDiversity_sublist
        (mergeVerifiedTracks input.verified
          (gapFillFromPool input.unusedCandidates lookup needed))
        input.intent target).subset htmem
    rcases List.mem_append.mp hmerged with hmem | hmem
    · exact Or.inl hmem
    · right
      obtain ⟨hfill, hpred⟩ := List.mem_filter.mp hmem
      have hnotin : t.docId ∉ input.verified.map VerifiedTrack.docId := by
        intro hcontra
        have : (input.verified.map VerifiedTrack.docId).contains t.docId = true := by
          exact List.elem_eq_true_of_mem hcontra
        rw [this] at hpred
        simp at hpred
      refine ⟨?_, hnotin⟩
      rw [gapFillFromPool] at hfill
      by_cases hempty : input.unusedCandidates.isEmpty
      · rw [if_pos hempty] at hfill
        simp at hfill
      · rw [if_neg hempty] at hfill
        exact List.take_subset _ _ hfill
  · intro hlt
    simp only [assemblePlaylist, if_pos hlt]
    set fill := gapFillFromPool input.unusedCandidates lookup needed with hfill
    set p : VerifiedTrack → Bool :=
      fun t => !((input.verified.map VerifiedTrack.docId).contains t.docId) with hp
    have hsub :
        ((enforceArtistDiversity (mergeVerifiedTracks input.verified fill) input.intent
          target).filter p).Sublist ((mergeVerifiedTracks input.verified fill).filter p) :=
      (enforceArtistDiversity_sublist _ input.intent target).filter p
    have hlen1 := hsub.length_le
    have hverif : input.verified.filter p = [] := by
      apply List.filter_eq_nil_iff.mpr
      intro a ha
      have hcont : (input.verified.map VerifiedTrack.docId).contains a.docId = true :=
        List.elem_eq_true_of_mem (List.mem_map_of_mem VerifiedTrack.docId ha)
      simp only [hp, hcont, Bool.not_true, Bool.false_eq_true, not_false_eq_true]
    have hmergelen : ((mergeVerifiedTracks input.verified fill).filter p).length ≤
        fill.length := by
      rw [mergeVerifiedTracks, List.filter_append, hverif, List.nil_append]
      calc ((fill.filter p).filter p).length ≤ (fill.filter p).length :=
            (List.filter_sublist _).length_le
        _ ≤ fill.length := (List.filter_sublist _).length_le
    have hfilllen : fill.length ≤ needed := by
      rw [hfill, gapFillFromPool]
      by_cases hempty : input.unusedCandidates.isEmpty
      · simp [hempty]
      · rw [if_neg hempty]
        exact List.length_take_le _ _
    exact le_trans (le_trans hlen1 hmergelen) hfilllen

/-! ## Concrete instances for C1 and C3 -/

/-- A concrete draft track. -/
def mkDraftTrack (docId artist appleId : String) : PlaylistDraftTrack :=
  { docId := docId
    Artist := artist
    track_Title := "Track"
    album := "Album"
    Apple_Music_ID := appleId
    Apple_Music_URL := none
    am_duration_ms := none
    FINAL_SCORE := none
    atmos_mood := none
    atmos_energy := none
    selectionRationale := "selected"
    position := 1 }

/-- A lookup entry that is found on Apple Music but carries no Atmos flag. -/
def warnLookupResult (id : String) : AppleLookupResult :=
  { id := id, found := true, hasAtmos := false, durationMs := some 180000,
    url := none, attrs := none }

/-- A lookup map in which every identifier is found without the Atmos flag. -/
def warnLookup : String → Option AppleLookupResult :=
  fun id => some (warnLookupResult id)

/-- One-track draft for the C1 witness. -/
def warnDraft : PlaylistDraft :=
  { tracks := [mkDraftTrack "d1" "Ambrose" "a1"], unusedCandidates := [] }

/-- Witness for the verifier drop/warn law: a concrete found-but-unconfirmed
track is retained with atmosWarning = true. -/
theorem verifyPlaylist_drop_and_warn_witness :
    ∃ v ∈ (verifyPlaylist warnDraft warnLookup).verifiedTracks,
      v.docId = (mkDraftTrack "d1" "Ambrose" "a1").docId ∧ v.atmosWarning = true :=
  (verifyPlaylist_drop_and_warn warnDraft warnLookup (mkDraftTrack "d1" "Ambrose" "a1")
      (by decide) (by decide)).2
    (warnLookupResult "a1") rfl rfl rfl

/-- Four draft tracks by one artist, all found without the Atmos flag. -/
def warnDraft4 : PlaylistDraft :=
  { tracks := [mkDraftTrack "d1" "Ambrose" "a1", mkDraftTrack "d2" "Ambrose" "a2",
      mkDraftTrack "d3" "Ambrose" "a3", mkDraftTrack "d4" "Ambrose" "a4"]
    unusedCandidates := [] }

/-- Intent with an explicit target of 10 tracks and no artist preferences. -/
def plainIntent10 : PlaylistIntent :=
  { description := "mellow jazz"
    genres := ["Jazz"]
    subGenres := []
    moods := ["mellow"]
    vibeKeywords := []
    energyRange := (4, 7)
    targetDurationMinutes := 60
    targetTrackCount := some 10
    artistPreferences := []
    excludeArtists := []
    eraPreference := none }

/-- Assembler input fed with the verifier output on `warnDraft4`. -/
def warnAssemblerInput : AssemblerInput :=
  { intent := plainIntent10
    verified := (verifyPlaylist warnDraft4 warnLookup).verifiedTracks
    unusedCandidates := [] }

/-- C1 counterexample: track d4 is found on Apple Music without the Atmos
flag and is retained by the verifier with atmosWarning = true, yet it does
not appear in the final Result — the assembler's per-artist diversity cap
(3 for the non-preferred artist Ambrose) silently drops it. -/
theorem warned_track_dropped_by_final_diversity_cap :
    (∃ v ∈ (verifyPlaylist warnDraft4 warnLookup).verifiedTracks,
      v.docId = "d4" ∧ v.atmosWarning = true)
    ∧ (∀ v ∈ (assemblePlaylist warnAssemblerInput warnLookup).tracks, v.docId ≠ "d4") := by
  decide

/-- A concrete verified track. -/
def mkVerifiedTrack (docId artist : String) : VerifiedTrack :=
  { docId := docId
    Artist := artist
    track_Title := "Track"
    album := "Album"
    Apple_Music_ID := docId
    Apple_Music_URL := none
    durationMs := 240000
    durationEstimated := true
    atmosVerified := true
    atmosWarning := false
    atmos_mood := none
    atmos_energy := none
    FINAL_SCORE := none }

/-- A concrete unused-pool candidate. -/
def mkCandidate (docId artist : String) : TrackCandidate :=
  { docId := docId
    Artist := artist
    track_Title := "Track"
    album := "Album"
    am_duration_ms := none
    Apple_Music_ID := docId
    Apple_Music_URL := none
    FINAL_SCORE := none
    artistRelevance := 1/2
    artistGenreContext := "genre"
    atmos_mood := none
    atmos_energy := none
    atmos_vibe := none
    atmos_tempo_estimate := none }

/-- Intent with an explicit target of 12 tracks. -/
def plainIntent12 : PlaylistIntent :=
  { plainIntent10 with targetTrackCount := some 12 }

/-- Eight verified tracks by eight distinct artists. -/
def eightVerified : List VerifiedTrack :=
  [mkVerifiedTrack "d1" "A1", mkVerifiedTrack "d2" "A2", mkVerifiedTrack "d3" "A3",
    mkVerifiedTrack "d4" "A4", mkVerifiedTrack "d5" "A5", mkVerifiedTrack "d6" "A6",
    mkVerifiedTrack "d7" "A7", mkVerifiedTrack "d8" "A8"]

/-- A lookup entry that is found on Apple Music with the Atmos flag. -/
def atmosLookupResult (id : String) : AppleLookupResult :=
  { id := id, found := true, hasAtmos := true, durationMs := some 200000,
    url := none, attrs := none }

/-- A lookup map in which every identifier is found with the Atmos flag. -/
def atmosLookup : String → Option AppleLookupResult :=
  fun id => some (atmosLookupResult id)

/-- Assembler input with 8 verified tracks against a target of 12 and a
non-empty unused pool that would verify successfully. -/
def eightOfTwelveInput : AssemblerInput :=
  { intent := plainIntent12
    verified := eightVerified
    unusedCandidates := [mkCandidate "p9" "A9"] }

/-- C3 counterexample: 8 verified tracks against a target of 12 is strictly
below 70% of the target (8 < 8.4), yet gap-fill is not attempted — the code
compares against `Math.floor(12 * 0.70) = 8` and `8 < 8` fails — even
though the unused pool holds a candidate that would verify with the Atmos
flag.  The final Result is exactly the 8 incoming tracks. -/
theorem gapFill_skipped_just_below_seventy_percent :
    10 * eightOfTwelveInput.verified.length < 7 * pipelineTargetCount plainIntent12
    ∧ (assemblePlaylist eightOfTwelveInput atmosLookup).tracks = eightVerified
    ∧ (∃ v ∈ (verifyPlaylist
          { tracks := gapFillDraftTracks [mkCandidate "p9" "A9"], unusedCandidates := [] }
          atmosLookup).verifiedTracks, v.docId = "p9") := by
  decide

/-! ## Candidate merging (dbMatcher.ts lines 174-198, orchestrator.ts lines 189-202)

`matchArtistsToTracks` deduplicates the per-artist query results through a
`Map` keyed by docId, replacing an entry only when the incoming copy has
strictly higher originating relevance; a `Map.set` on an existing key keeps
the entry's position, so the assoc-list embedding replaces in place.
`mergeUnique` (used by the orchestrator's expansion loop) appends only
candidates whose docId is unseen — the first-seen copy always stays. -/

/-- One step of the matcher's dedup map update (dbMatcher.ts lines 180-186). -/
def upsertCandidate : List TrackCandidate → TrackCandidate → List TrackCandidate
  | [], t => [t]
  | x :: rest, t =>
    if x.docId = t.docId then
      if x.artistRelevance < t.artistRelevance then t :: rest else x :: rest
    else x :: upsertCandidate rest t

/-- The matcher's dedup of a stream of per-artist query results. -/
def dedupByRelevance (tracks : List TrackCandidate) : List TrackCandidate :=
  tracks.foldl upsertCandidate []

/-- The loop of mergeUnique (orchestrator.ts lines 195-200). -/
def mergeUniqueGo (seen : List String) : List TrackCandidate → List TrackCandidate
  | [] => []
  | x :: rest =>
    if x.docId ∈ seen then mergeUniqueGo seen rest
    else x :: mergeUniqueGo (x.docId :: seen) rest

/-- mergeUnique (orchestrator.ts lines 192-202): keep all of `a`, then
append the items of `b` whose docId has not been seen. -/
def mergeUnique (a b : List TrackCandidate) : List TrackCandidate :=
  a ++ mergeUniqueGo (a.map TrackCandidate.docId) b

theorem upsertCandidate_keys (m : List TrackCandidate) (t : TrackCandidate) :
    (upsertCandidate m t).map TrackCandidate.docId =
      if t.docId ∈ m.map TrackCandidate.docId then m.map TrackCandidate.docId
      else m.map TrackCandidate.docId ++ [t.docId] := by
  induction m with
  | nil => simp [upsertCandidate]
  | cons x rest ih =>
    simp only [upsertCandidate]
    by_cases hx : x.docId = t.docId
    · rw [if_pos hx]
      by_cases hrel : x.artistRelevance < t.artistRelevance
      · rw [if_pos hrel]
        simp [hx]
      · rw [if_neg hrel]
        simp [hx]
    · rw [if_neg hx]
      simp only [List.map_cons]
      rw [ih]
      by_cases hmem : t.docId ∈ rest.map TrackCandidate.docId
      · rw [if_pos hmem, if_pos (List.mem_cons_of_mem _ hmem)]
      · rw [if_neg hmem, if_neg ?_, List.cons_append]
        intro hcontra
        rcases List.mem_cons.mp hcontra with heq | hmem'
        · exact hx heq.symm
        · exact hmem hmem'

theorem upsertCandidate_keys_nodup (m : List TrackCandidate) (t : TrackCandidate)
    (h : (m.map TrackCandidate.docId).Nodup) :
    ((upsertCandidate m t).map TrackCandidate.docId).Nodup := by
  rw [upsertCandidate_keys]
  by_cases hmem : t.docId ∈ m.map TrackCandidate.docId
  · rw [if_pos hmem]; exact h
  · rw [if_neg hmem]
    refine List.Nodup.append h (List.nodup_singleton _) ?_
    intro k hk1 hk2
    rw [List.mem_singleton] at hk2
    subst hk2
    exact hmem hk1

theorem upsertCandidate_dominates (m : List TrackCandidate) (t : TrackCandidate)
    (k : String) (r : Rat) (h : ∃ c ∈ m, c.docId = k ∧ r ≤ c.artistRelevance) :
    ∃ c ∈ upsertCandidate m t, c.docId = k ∧ r ≤ c.artistRelevance := by
  induction m with
  | nil => simp at h
  | cons x rest ih =>
    obtain ⟨c, hc, hck, hcr⟩ := h
    simp only [upsertCandidate]
    by_cases hx : x.docId = t.docId
    · rw [if_pos hx]
      by_cases hrel : x.artistRelevance < t.artistRelevance
      · rw [if_pos hrel]
        rcases List.mem_cons.mp hc with rfl | hcm
        · exact ⟨t, List.mem_cons_self _ _, hx ▸ hck, le_trans hcr (le_of_lt hrel)⟩
        · exact ⟨c, List.mem_cons_of_mem _ hcm, hck, hcr⟩
      · rw [if_neg hrel]
        exact ⟨c, hc, hck, hcr⟩
    · rw [if_neg hx]
      rcases List.mem_cons.mp hc with rfl | hcm
      · exact ⟨c, List.mem_cons_self _ _, hck, hcr⟩
      · obtain ⟨c', hc', hck', hcr'⟩ := ih ⟨c, hcm, hck, hcr⟩
        exact ⟨c', List.mem_cons_of_mem _ hc', hck', hcr'⟩

theorem upsertCandidate_self (m : List TrackCandidate) (t : TrackCandidate) :
    ∃ c ∈ upsertCandidate m t, c.docId = t.docId ∧
      t.artistRelevance ≤ c.artistRelevance := by
  induction m with
  | nil => exact ⟨t, by simp [upsertCandidate], rfl, le_refl _⟩
  | cons x rest ih =>
    simp only [upsertCandidate]
    by_cases hx : x.docId = t.docId
    · rw [if_pos hx]
      by_cases hrel : x.artistRelevance < t.artistRelevance
      · rw [if_pos hrel]
        exact ⟨t, List.mem_cons_self _ _, rfl, le_refl _⟩
      · rw [if_neg hrel]
        exact ⟨x, List.mem_cons_self _ _, hx, le_of_not_lt hrel⟩
    · rw [if_neg hx]
      obtain ⟨c, hc, hck, hcr⟩ := ih
      exact ⟨c, List.mem_cons_of_mem _ hc, hck, hcr⟩

theorem dedup_foldl_nodup :
    ∀ (ts m : List TrackCandidate), (m.map TrackCandidate.docId).Nodup →
      ((ts.foldl upsertCandidate m).map TrackCandidate.docId).Nodup := by
  intro ts
  induction ts with
  | nil => intro m h; simpa using h
  | cons t ts ih =>
    intro m h
    simpa using ih (upsertCandidate m t) (upsertCandidate_keys_nodup m t h)

theorem dedup_foldl_persists :
    ∀ (ts m : List TrackCandidate) (k : String) (r : Rat),
      (∃ c ∈ m, c.docId = k ∧ r ≤ c.artistRelevance) →
      ∃ c ∈ ts.foldl upsertCandidate m, c.docId = k ∧ r ≤ c.artistRelevance := by
  intro ts
  induction ts with
  | nil => intro m k r h; simpa using h
  | cons t ts ih =>
    intro m k r h
    simpa using ih (upsertCandidate m t) k r (upsertCandidate_dominates m t k r h)

theorem dedup_foldl_dominates :
    ∀ (ts m : List TrackCandidate) (t : TrackCandidate), t ∈ ts →
      ∃ c ∈ ts.foldl upsertCandidate m, c.docId = t.docId ∧
        t.artistRelevance ≤ c.artistRelevance := by
  intro ts
  induction ts with
  | nil => intro m t ht; simp at ht
  | cons u ts ih =>
    intro m t ht
    rcases List.mem_cons.mp ht with rfl | htm
    · simpa using dedup_foldl_persists ts (upsertCandidate m t) t.docId t.artistRelevance
        (upsertCandidate_self m t)
    · simpa using ih (upsertCandidate m u) t htm

theorem mergeUniqueGo_keys :
    ∀ (b : List TrackCandidate) (seen : List String),
      ((mergeUniqueGo seen b).map TrackCandidate.docId).Nodup ∧
        ∀ k ∈ (mergeUniqueGo seen b).map TrackCandidate.docId, k ∉ seen := by
  intro b
  induction b with
  | nil => intro seen; simp [mergeUniqueGo]
  | cons x rest ih =>
    intro seen
    simp only [mergeUniqueGo]
    by_cases hx : x.docId ∈ seen
    · rw [if_pos hx]
      exact ih seen
    · rw [if_neg hx]
      obtain ⟨hnodup, hdisj⟩ := ih (x.docId :: seen)
      constructor
      · simp only [List.map_cons, List.nodup_cons]
        refine ⟨fun hcontra => ?_, hnodup⟩
        exact hdisj x.docId hcontra (List.mem_cons_self _ _)
      · intro k hk
        rcases List.mem_cons.mp hk with rfl | hkm
        · exact hx
        · exact fun hkseen => hdisj k hkm (List.mem_cons_of_mem _ hkseen)

/-- C6 (amended): merged candidate pools never contain two entries with the
same document identifier; within one matching pass the kept copy's
originating relevance dominates every incoming copy with that identifier;
but the orchestrator's cross-round `mergeUnique` keeps the first-seen copy
unconditionally (see the counterexample for a higher-relevance later copy
being discarded). -/
theorem candidate_merge_dedup_law (ts a b : List TrackCandidate)
    (ha : (a.map TrackCandidate.docId).Nodup) :
    ((dedupByRelevance ts).map TrackCandidate.docId).Nodup
    ∧ (∀ t ∈ ts, ∃ c ∈ dedupByRelevance ts, c.docId = t.docId ∧
        t.artistRelevance ≤ c.artistRelevance)
    ∧ ((mergeUnique a b).map TrackCandidate.docId).Nodup
    ∧ (∀ x ∈ a, x ∈ mergeUnique a b) := by
  refine ⟨?_, ?_, ?_, ?_⟩
  · exact dedup_foldl_nodup ts [] (by simp)
  · intro t ht
    exact dedup_foldl_dominates ts [] t ht
  · rw [mergeUnique, List.map_append, List.nodup_append]
    obtain ⟨hnodup, hdisj⟩ := mergeUniqueGo_keys b (a.map TrackCandidate.docId)
    exact ⟨ha, hnodup, fun k hk hk' => hdisj k hk' hk⟩
  · intro x hx
    exact List.mem_append_left _ hx

/-- Witness for the merge/dedup law at a concrete input. -/
theorem candidate_merge_dedup_law_witness :
    mkCandidate "x" "A" ∈ mergeUnique [mkCandidate "x" "A"] [] :=
  (candidate_merge_dedup_law [] [mkCandidate "x" "A"] [] (by decide)).2.2.2
    (mkCandidate "x" "A") (List.mem_cons_self _ _)

/-- The lower-relevance copy of docId x, seen in the first discovery round. -/
def lowRelevanceCopy : TrackCandidate :=
  { mkCandidate "x" "A" with artistRelevance := 1/2 }

/-- The higher-relevance copy of docId x, seen in a later expansion round. -/
def highRelevanceCopy : TrackCandidate :=
  { mkCandidate "x" "A" with artistRelevance := 9/10 }

/-- C6 counterexample: when the same docId arrives from two discovery
rounds, `mergeUnique` keeps the first-seen copy even though the later copy
has strictly higher originating relevance. -/
theorem mergeUnique_keeps_lower_relevance_first_copy :
    mergeUnique [lowRelevanceCopy] [highRelevanceCopy] = [lowRelevanceCopy]
    ∧ lowRelevanceCopy.docId = highRelevanceCopy.docId
    ∧ lowRelevanceCopy.artistRelevance < highRelevanceCopy.artistRelevance := by
  refine ⟨rfl, rfl, ?_⟩
  show (1/2 : Rat) < 9/10
  norm_num

/-! ## Curator (curator.ts)

The rule-based fallback assigns `position := selected.length + 1` at each
push, so positions are contiguous 1..N by construction.  The AI path maps
Gemini's selections back to candidates (dropping unknown and repeated
docIds) and sorts by Gemini's position field — `Array.prototype.sort` is a
stable sort, modelled here by the (stable) insertion sort — but never
renumbers.  The duration break `accumulatedDuration >= targetDurationMs *
1.1` is modelled exactly: the IEEE double nearest 1.1 is
`4953959590107546 / 2^52`, and the comparison of the integer accumulator
with the rounded product is scaled by 2^52. -/

/-- The integer significand of the IEEE-754 double nearest 1.1, scaled by
2^52. -/
def double11Num : Nat := 4953959590107546

/-- The draft track the rule-based fallback pushes (curator.ts lines
171-184). -/
def draftOfCandidate (c : TrackCandidate) (position : Nat) : PlaylistDraftTrack :=
  { docId := c.docId
    Artist := c.Artist
    track_Title := c.track_Title
    album := c.album
    Apple_Music_ID := c.Apple_Music_ID
    Apple_Music_URL := c.Apple_Music_URL
    am_duration_ms := c.am_duration_ms
    FINAL_SCORE := c.FINAL_SCORE
    atmos_mood := c.atmos_mood
    atmos_energy := c.atmos_energy
    selectionRationale := "Rule-based selection (AI curation unavailable)"
    position := (position : Int) }

/-- The loop of ruleBasedSelection (curator.ts lines 156-188): `acc` holds
the selected tracks in reverse order, `accDur` the accumulated duration. -/
def ruleBasedGo (intent : PlaylistIntent) (targetCount targetDurationMs : Nat) :
    List TrackCandidate → List PlaylistDraftTrack → Nat → List PlaylistDraftTrack
  | [], acc, _ => acc.reverse
  | c :: rest, acc, accDur =>
    if targetCount ≤ acc.length then acc.reverse
    else if roundToDouble53 (targetDurationMs * double11Num) ≤ accDur * 2 ^ 52 then
      acc.reverse
    else
      let artistKey := jsToLower c.Artist
      if artistKey ∈ intent.excludeArtists.map jsToLower then
        ruleBasedGo intent targetCount targetDurationMs rest acc accDur
      else
        let maxPerArtist : Nat :=
          if artistKey ∈ intent.artistPreferences.map jsToLower then 5 else 3
        if maxPerArtist ≤ acc.countP (fun t => jsToLower t.Artist == artistKey) then
          ruleBasedGo intent targetCount targetDurationMs rest acc accDur
        else
          ruleBasedGo intent targetCount targetDurationMs rest
            (draftOfCandidate c (acc.length + 1) :: acc)
            (accDur + c.am_duration_ms.getD DEFAULT_DURATION_MS)

/-- ruleBasedSelection (curator.ts lines 145-191). -/
def ruleBasedSelection (candidates : List TrackCandidate) (targetCount targetDurationMs : Nat)
    (intent : PlaylistIntent) : List PlaylistDraftTrack :=
  ruleBasedGo intent targetCount targetDurationMs candidates [] 0

/-- GeminiTrackSelection from curator.ts. -/
structure GeminiTrackSelection where
  docId : String
  selectionRationale : String
  position : Int
deriving DecidableEq

/-- Lookup in `new Map(candidates.map(c => [c.docId, c]))`: the Map
constructor keeps the last entry per key. -/
def candidateByIdLast (candidates : List TrackCandidate) (id : String) : Option TrackCandidate :=
  candidates.reverse.find? (fun c => c.docId == id)

/-- The draft track the AI path builds from a selection (curator.ts lines
241-254). -/
def draftFromSelection (c : TrackCandidate) (sel : GeminiTrackSelection) : PlaylistDraftTrack :=
  { docId := c.docId
    Artist := c.Artist
    track_Title := c.track_Title
    album := c.album
    Apple_Music_ID := c.Apple_Music_ID
    Apple_Music_URL := c.Apple_Music_URL
    am_duration_ms := c.am_duration_ms
    FINAL_SCORE := c.FINAL_SCORE
    atmos_mood := c.atmos_mood
    atmos_energy := c.atmos_energy
    selectionRationale := sel.selectionRationale
    position := sel.position }

/-- The AI-path mapping loop (curator.ts lines 237-256): selections whose
docId is unknown or already used are discarded. -/
def selectionsLoop (candidates : List TrackCandidate) :
    List GeminiTrackSelection → List String → List PlaylistDraftTrack
  | [], _ => []
  | sel :: rest, used =>
    match candidateByIdLast candidates sel.docId with
    | none => selectionsLoop candidates rest used
    | some c =>
      if sel.docId ∈ used then selectionsLoop candidates rest used
      else draftFromSelection c sel :: selectionsLoop candidates rest (sel.docId :: used)

/-- The sort relation of `draftTracks.sort((a, b) => a.position - b.position)`. -/
def byPosition : PlaylistDraftTrack → PlaylistDraftTrack → Prop :=
  fun a b => a.position ≤ b.position

instance : DecidableRel byPosition := fun a b => Int.decLe a.position b.position

instance : IsTotal PlaylistDraftTrack byPosition :=
  ⟨fun a b => le_total a.position b.position⟩

instance : IsTrans PlaylistDraftTrack byPosition :=
  ⟨fun _ _ _ hab hbc => le_trans hab hbc⟩

/-- The AI path's final draft list (curator.ts lines 237-259): map the
selections back to candidates, then stable-sort by the assigned position. -/
def curatorSortedDraft (candidates : List TrackCandidate)
    (selections : List GeminiTrackSelection) : List PlaylistDraftTrack :=
  List.insertionSort byPosition (selectionsLoop candidates selections [])

/-- The contiguous 1-based position sequence of length n. -/
def positionRange (n : Nat) : List Int :=
  (List.range n).map (fun i => (i : Int) + 1)

theorem positionRange_succ (n : Nat) :
    positionRange (n + 1) = positionRange n ++ [(n : Int) + 1] := by
  simp [positionRange, List.range_succ]

theorem ruleBasedGo_positions (intent : PlaylistIntent) (targetCount targetDurationMs : Nat) :
    ∀ (rest : List TrackCandidate) (acc : List PlaylistDraftTrack) (accDur : Nat),
      acc.map PlaylistDraftTrack.position = (positionRange acc.length).reverse →
      (ruleBasedGo intent targetCount targetDurationMs rest acc accDur).map
          PlaylistDraftTrack.position =
        positionRange
          (ruleBasedGo intent targetCount targetDurationMs rest acc accDur).length := by
  intro rest
  induction rest with
  | nil =>
    intro acc accDur h
    simp only [ruleBasedGo, List.map_reverse, List.length_reverse, h, List.reverse_reverse]
  | cons c rest ih =>
    intro acc accDur h
    simp only [ruleBasedGo]
    by_cases hfull : targetCount ≤ acc.length
    · rw [if_pos hfull]
      simp only [List.map_reverse, List.length_reverse, h, List.reverse_reverse]
    · rw [if_neg hfull]
      by_cases hdur : roundToDouble53 (targetDurationMs * double11Num) ≤ accDur * 2 ^ 52
      · rw [if_pos hdur]
        simp only [List.map_reverse, List.length_reverse, h, List.reverse_reverse]
      · rw [if_neg hdur]
        by_cases hexcl : jsToLower c.Artist ∈ intent.excludeArtists.map jsToLower
        · rw [if_pos hexcl]
          exact ih acc accDur h
        · rw [if_neg hexcl]
          by_cases hcapped :
              (if jsToLower c.Artist ∈ intent.artistPreferences.map jsToLower then 5 else 3) ≤
                acc.countP (fun t => jsToLower t.Artist == jsToLower c.Artist)
          · rw [if_pos hcapped]
            exact ih acc accDur h
          · rw [if_neg hcapped]
            apply ih
            simp only [List.map_cons, List.length_cons, draftOfCandidate]
            rw [positionRange_succ, List.reverse_append, h]
            simp [Int.add_comm]

/-- C7 (amended): the rule-based fallback's Selection carries contiguous
1-based positions 1..N for every N it produces; the AI path's Selection is
sorted by the generative service's position field (a stable sort, a
permutation of the mapped selections) but keeps those positions as assigned
— they need not be contiguous (see the counterexample). -/
theorem curator_positions_law (candidates : List TrackCandidate) (intent : PlaylistIntent)
    (targetCount targetDurationMs : Nat) (selections : List GeminiTrackSelection) :
    ((ruleBasedSelection candidates targetCount targetDurationMs intent).map
        PlaylistDraftTrack.position =
      positionRange (ruleBasedSelection candidates targetCount targetDurationMs intent).length)
    ∧ List.Sorted byPosition (curatorSortedDraft candidates selections)
    ∧ (curatorSortedDraft candidates selections).Perm
        (selectionsLoop candidates selections []) := by
  refine ⟨?_, ?_, ?_⟩
  · exact ruleBasedGo_positions intent targetCount targetDurationMs candidates [] 0 (by simp [positionRange])
  · exact List.sorted_insertionSort byPosition _
  · exact List.perm_insertionSort byPosition _

/-- Candidates for the AI-path counterexample. -/
def aiCandidates : List TrackCandidate :=
  [mkCandidate "c1" "A1", mkCandidate "c2" "A2"]

/-- Gemini returns positions 2 and 5 for the two selected tracks. -/
def aiSelections : List GeminiTrackSelection :=
  [{ docId := "c1", selectionRationale := "opener", position := 2 },
    { docId := "c2", selectionRationale := "closer", position := 5 }]

/-- C7 counterexample: the AI path sorts by the generative positions but
never renumbers them, so a Selection can carry positions [2, 5] — not the
contiguous sequence [1, 2]. -/
theorem curator_ai_positions_not_contiguous :
    (curatorSortedDraft aiCandidates aiSelections).map PlaylistDraftTrack.position = [2, 5]
    ∧ (curatorSortedDraft aiCandidates aiSelections).length = 2
    ∧ ([2, 5] : List Int) ≠ positionRange 2 := by
  decide

/-! ## Track enricher cache policy (trackEnricher.ts)

`enrichTracks` first counts every candidate that already carries the three
in-memory enrichment attributes as a cache hit (no store read and no
freshness check), then re-checks the remaining candidates against the store
— `isCacheFresh` accepting a record only when its timestamp is within the
30-day window — and queues the rest (`trulyStale`) for re-enrichment.  The
store reads happen in batches of 50, which does not affect the per-track
classification, so the embedding classifies track by track.  Timestamps are
milliseconds as `Int` (`Date.now() - enrichedAt.toMillis()`). -/

/-- The atmos_ enrichment fields of a Firestore track document. -/
structure FirestoreEnrichmentFields where
  atmos_mood : Option String
  atmos_energy : Option Nat
  atmos_vibe : Option (List String)
  atmos_tempo_estimate : Option Nat
  atmos_enriched_at : Option Int
  atmos_enriched_by : Option String
deriving DecidableEq

/-- isCacheFresh (trackEnricher.ts lines 38-42): no timestamp is never
fresh; otherwise the age must be below 30 days. -/
def isCacheFresh (now : Int) (enrichedAt : Option Int) : Bool :=
  match enrichedAt with
  | none => false
  | some t => now - t < 30 * 24 * 60 * 60 * 1000

/-- The in-memory cache-hit test (trackEnricher.ts line 200):
`track.atmos_mood && track.atmos_energy && track.atmos_vibe` with JavaScript
truthiness — the empty string and 0 are falsy, an array (even empty) is
truthy. -/
def hasInMemoryEnrichment (t : TrackCandidate) : Bool :=
  (match t.atmos_mood with | some m => !(m == "") | none => false)
  && (match t.atmos_energy with | some e => !(e == 0) | none => false)
  && t.atmos_vibe.isSome

/-- How a candidate fares in the enricher's two cache passes. -/
inductive CacheStatus where
  | memoryHit
  | storeHit
  | stale
deriving DecidableEq

/-- Per-candidate classification (trackEnricher.ts lines 196-238): an
in-memory enriched track is a cache hit without a store read; otherwise the
store record's timestamp decides (`data?.atmos_enriched_at &&
isCacheFresh(...)`). -/
def classifyCandidate (now : Int) (store : String → Option FirestoreEnrichmentFields)
    (t : TrackCandidate) : CacheStatus :=
  if hasInMemoryEnrichment t then .memoryHit
  else if isCacheFresh now ((store t.docId).bind FirestoreEnrichmentFields.atmos_enriched_at) then
    .storeHit
  else .stale

/-- The candidates queued for re-enrichment. -/
def trulyStale (now : Int) (store : String → Option FirestoreEnrichmentFields)
    (candidates : List TrackCandidate) : List TrackCandidate :=
  candidates.filter (fun t => classifyCandidate now store t == .stale)

/-- The enricher's cacheHits counter. -/
def enricherCacheHits (now : Int) (store : String → Option FirestoreEnrichmentFields)
    (candidates : List TrackCandidate) : Nat :=
  candidates.countP (fun t => !(classifyCandidate now store t == .stale))

/-- C4 (amended): for a candidate without in-memory enrichment attributes
the freshness law holds — a store record whose timestamp is outside the
30-day window (or missing) sends it to re-enrichment, never counting as a
cache hit, and a record within the window always counts as a cache hit; but
a candidate already carrying enrichment attributes in memory is counted as
a cache hit with no freshness check at all (see the counterexample for a
stale record behind an in-memory hit).  `isCacheFresh` accepts exactly the
timestamps younger than 30 days. -/
theorem enricher_freshness_law (now : Int)
    (store : String → Option FirestoreEnrichmentFields)
    (candidates : List TrackCandidate) (t : TrackCandidate) (ht : t ∈ candidates) :
    (hasInMemoryEnrichment t = false →
      isCacheFresh now ((store t.docId).bind FirestoreEnrichmentFields.atmos_enriched_at) =
        false →
      t ∈ trulyStale now store candidates)
    ∧ (hasInMemoryEnrichment t = false →
      isCacheFresh now ((store t.docId).bind FirestoreEnrichmentFields.atmos_enriched_at) =
        true →
      t ∉ trulyStale now store candidates)
    ∧ (hasInMemoryEnrichment t = true → t ∉ trulyStale now store candidates)
    ∧ (∀ ts : Int, isCacheFresh now (some ts) = true ↔ now - ts < 30 * 24 * 60 * 60 * 1000) := by
  refine ⟨?_, ?_, ?_, ?_⟩
  · intro hmem hfresh
    apply List.mem_filter.mpr
    refine ⟨ht, ?_⟩
    simp [classifyCandidate, hmem, hfresh]
  · intro hmem hfresh hcontra
    obtain ⟨-, hpred⟩ := List.mem_filter.mp hcontra
    simp [classifyCandidate, hmem, hfresh] at hpred
  · intro hmem hcontra
    obtain ⟨-, hpred⟩ := List.mem_filter.mp hcontra
    simp [classifyCandidate, hmem] at hpred
  · intro ts
    simp [isCacheFresh]

/-- A candidate that already carries enrichment attributes in memory. -/
def inMemoryEnrichedTrack : TrackCandidate :=
  { mkCandidate "m1" "Ambrose" with
    atmos_mood := some "chill", atmos_energy := some 5, atmos_vibe := some ["warm"] }

/-- A store whose enrichment record for every document is 31 days old. -/
def staleStore : String → Option FirestoreEnrichmentFields :=
  fun _ => some
    { atmos_mood := some "chill", atmos_energy := some 5, atmos_vibe := some ["warm"],
      atmos_tempo_estimate := some 90, atmos_enriched_at := some 0,
      atmos_enriched_by := some "perplexity" }

/-- Now = 31 days (in ms) after the stale record's timestamp 0. -/
def thirtyOneDaysMs : Int := 31 * 24 * 60 * 60 * 1000

/-- C4 counterexample: a candidate whose enrichment record is 31 days old —
older than the 30-day window, hence never a legitimate cache hit per the
claim — is nevertheless counted as a cache hit and not re-enriched, because
it already carries enrichment attributes in memory and the in-memory pass
performs no freshness check. -/
theorem stale_record_counted_as_cache_hit_in_memory :
    isCacheFresh thirtyOneDaysMs
        ((staleStore "m1").bind FirestoreEnrichmentFields.atmos_enriched_at) = false
    ∧ classifyCandidate thirtyOneDaysMs staleStore inMemoryEnrichedTrack = .memoryHit
    ∧ (trulyStale thirtyOneDaysMs staleStore [inMemoryEnrichedTrack]).length = 0
    ∧ enricherCacheHits thirtyOneDaysMs staleStore [inMemoryEnrichedTrack] = 1 := by
  decide

/-- Witness for the freshness law at a fresh store record: a candidate with
no in-memory attributes and a 1-day-old record is not re-enriched. -/
theorem enricher_freshness_law_witness :
    mkCandidate "m2" "Ambrose" ∉
      trulyStale (24 * 60 * 60 * 1000) staleStore [mkCandidate "m2" "Ambrose"] :=
  (enricher_freshness_law (24 * 60 * 60 * 1000) staleStore
      [mkCandidate "m2" "Ambrose"] (mkCandidate "m2" "Ambrose")
      (List.mem_singleton_self _)).2.1 rfl rfl

/-! ## Intent parser (clarify.ts, src/unnamed/part_005)

The Gemini call and the `JSON.parse` of its text both sit inside one
`try`-block; any throw lands in the catch that builds the default intent.
The call outcome is therefore modelled as `Except Unit ParsedClarify`:
`Except.error` covers both a failed call and malformed output, `Except.ok`
a parsed response object.  JavaScript `split(/\s+/)` on a trimmed string is
modelled by a whitespace-run splitter on the character list. -/

/-- The parsed `intent` object of the Gemini response, each field possibly
absent (the source applies a `??` default to every field). -/
structure ParsedIntent where
  description : Option String
  genres : Option (List String)
  subGenres : Option (List String)
  moods : Option (List String)
  vibeKeywords : Option (List String)
  energyRange : Option (Nat × Nat)
  targetDurationMinutes : Option Nat
  targetTrackCount : Option (Option Nat)
  artistPreferences : Option (List String)
  excludeArtists : Option (List String)
  eraPreference : Option (Option String)
deriving DecidableEq

/-- The parsed Gemini clarify response. -/
structure ParsedClarify where
  needsClarification : Bool
  clarificationQuestion : Option String
  intent : Option ParsedIntent
deriving DecidableEq

/-- ClarifyResult from types.ts. -/
structure ClarifyResult where
  needsClarification : Bool
  clarificationQuestion : Option String
  intent : Option PlaylistIntent
deriving DecidableEq

/-- The generic-word list of the vague-request heuristic (clarify.ts lines
18-21). -/
def VAGUE_REQUEST_INDICATORS : List String :=
  ["music", "songs", "playlist", "something", "anything", "good",
    "nice", "cool", "vibes", "beats"]

/-- ASCII whitespace, the relevant fragment of the regex class `\s`. -/
def isWhitespaceChar (c : Char) : Bool :=
  c == ' ' || c == '\t' || c == '\n' || c == '\r'

/-- Trim leading and trailing whitespace from a character list. -/
def trimChars (l : List Char) : List Char :=
  ((l.dropWhile isWhitespaceChar).reverse.dropWhile isWhitespaceChar).reverse

/-- Split a trimmed character list on whitespace runs, flushing only
non-empty words (a trimmed string has no leading or trailing run). -/
def splitWsGo : List Char → List Char → List String
  | [], cur => if cur.isEmpty then [] else [String.mk cur.reverse]
  | c :: rest, cur =>
    if isWhitespaceChar c then
      if cur.isEmpty then splitWsGo rest []
      else String.mk cur.reverse :: splitWsGo rest []
    else splitWsGo rest (c :: cur)

/-- JavaScript `s.split(/\s+/)` for an already-trimmed `s` (the empty string
splits to [""]). -/
def splitWsChars (l : List Char) : List String :=
  if l.isEmpty then [""] else splitWsGo l []

/-- isRequestTooVague (clarify.ts lines 23-31): at most 3 words, all
generic. -/
def isRequestTooVague (userPrompt : String) : Bool :=
  let words := splitWsChars (trimChars (jsToLower userPrompt).data)
  decide (words.length ≤ 3) && words.all (fun w => VAGUE_REQUEST_INDICATORS.contains w)

/-- The clarification question returned by the fast vague-request check. -/
def vagueQuestionText : String :=
  "What kind of music are you in the mood for? Tell me a genre, mood, or vibe."

/-- The fallback clarification question of the parsed-response path. -/
def fallbackQuestionText : String :=
  "Can you be more specific?"

/-- The default intent of the catch branch (clarify.ts lines 147-162). -/
def defaultIntentFor (userPrompt : String) : PlaylistIntent :=
  { description := userPrompt
    genres := []
    subGenres := []
    moods := []
    vibeKeywords := []
    energyRange := (4, 7)
    targetDurationMinutes := 60
    targetTrackCount := none
    artistPreferences := []
    excludeArtists := []
    eraPreference := none }

/-- Field-by-field defaulting of a parsed intent (clarify.ts lines
129-141). -/
def intentWithDefaults (userPrompt : String) (p : ParsedIntent) : PlaylistIntent :=
  { description := p.description.getD userPrompt
    genres := p.genres.getD []
    subGenres := p.subGenres.getD []
    moods := p.moods.getD []
    vibeKeywords := p.vibeKeywords.getD []
    energyRange := p.energyRange.getD (4, 7)
    targetDurationMinutes := p.targetDurationMinutes.getD 60
    targetTrackCount := p.targetTrackCount.getD none
    artistPreferences := p.artistPreferences.getD []
    excludeArtists := p.excludeArtists.getD []
    eraPreference := p.eraPreference.getD none }

/-- clarifyIntent (clarify.ts lines 85-164). -/
def clarifyIntent (userPrompt : String) (gemini : Except Unit ParsedClarify) : ClarifyResult :=
  if isRequestTooVague userPrompt then
    { needsClarification := true, clarificationQuestion := some vagueQuestionText,
      intent := none }
  else
    match gemini with
    | .error _ =>
      { needsClarification := false, clarificationQuestion := none,
        intent := some (defaultIntentFor userPrompt) }
    | .ok parsed =>
      match parsed.intent with
      | none =>
        { needsClarification := true,
          clarificationQuestion := some (parsed.clarificationQuestion.getD fallbackQuestionText),
          intent := none }
      | some pi =>
        if parsed.needsClarification then
          { needsClarification := true,
            clarificationQuestion :=
              some (parsed.clarificationQuestion.getD fallbackQuestionText),
            intent := none }
        else
          { needsClarification := false, clarificationQuestion := none,
            intent := some (intentWithDefaults userPrompt pi) }

/-- C9: for every prompt that passes the vague-request gate, a failed
generative call or malformed (unparseable) output yields a non-clarification
structured request built from the defaults — empty genre and mood lists,
energy range [4, 7], 60-minute target — so the pipeline proceeds past the
clarify stage instead of failing. -/
theorem clarify_failure_never_fatal (userPrompt : String)
    (h : isRequestTooVague userPrompt = false) :
    clarifyIntent userPrompt (Except.error ()) =
      { needsClarification := false, clarificationQuestion := none,
        intent := some (defaultIntentFor userPrompt) }
    ∧ (defaultIntentFor userPrompt).genres = []
    ∧ (defaultIntentFor userPrompt).moods = []
    ∧ (defaultIntentFor userPrompt).energyRange = (4, 7)
    ∧ (defaultIntentFor userPrompt).targetDurationMinutes = 60
    ∧ (defaultIntentFor userPrompt).targetTrackCount = none := by
  refine ⟨?_, rfl, rfl, rfl, rfl, rfl⟩
  simp [clarifyIntent, h]

/-- Witness for the clarify-failure law at a concrete prompt. -/
theorem clarify_failure_never_fatal_witness :
    clarifyIntent "chill late-night deep house" (Except.error ()) =
      { needsClarification := false, clarificationQuestion := none,
        intent := some (defaultIntentFor "chill late-night deep house") }
    ∧ (defaultIntentFor "chill late-night deep house").genres = []
    ∧ (defaultIntentFor "chill late-night deep house").moods = []
    ∧ (defaultIntentFor "chill late-night deep house").energyRange = (4, 7)
    ∧ (defaultIntentFor "chill late-night deep house").targetDurationMinutes = 60
    ∧ (defaultIntentFor "chill late-night deep house").targetTrackCount = none :=
  clarify_failure_never_fatal "chill late-night deep house" (by decide)

/-! ## Batch catalog lookup (lib/appleMusic.ts, batchLookupAppleTracks)

The ids are processed in batches of 300.  Each batch's network outcome is an
input: `none` models an HTTP error status or a thrown exception (both mark
the whole batch not-found), `some items` a parsed response payload.  The
JavaScript `Map` is an assoc list with in-place `set`. -/

/-- One song item of the Apple Music response payload. -/
structure AppleSongItem where
  id : String
  attributes : AppleTrackAttrs
deriving DecidableEq

/-- The found entry built for a response item (appleMusic.ts lines 98-111). -/
def foundResultOf (item : AppleSongItem) : AppleLookupResult :=
  { id := item.id
    found := true
    hasAtmos := (item.attributes.audioVariants.getD []).contains "dolby-atmos"
    durationMs := item.attributes.durationInMillis
    url := item.attributes.url
    attrs := some item.attributes }

/-- JavaScript `Map.set`: replace in place, or append a new entry. -/
def mapSet : List (String × AppleLookupResult) → String → AppleLookupResult →
    List (String × AppleLookupResult)
  | [], k, v => [(k, v)]
  | (k', v') :: rest, k, v =>
    if k' = k then (k, v) :: rest else (k', v') :: mapSet rest k v

/-- JavaScript `Map.get`. -/
def mapGet (m : List (String × AppleLookupResult)) (k : String) : Option AppleLookupResult :=
  (m.find? (fun p => p.1 == k)).map Prod.snd

/-- Process one batch (appleMusic.ts lines 78-123): a failed request marks
the whole batch not-found; a successful response records a found entry per
returned item and then a not-found entry for every batch id the response
omitted. -/
def processBatch (m : List (String × AppleLookupResult)) (batch : List String)
    (outcome : Option (List AppleSongItem)) : List (String × AppleLookupResult) :=
  match outcome with
  | none => batch.foldl (fun acc id => mapSet acc id (notFoundResult id)) m
  | some items =>
    let m1 := items.foldl (fun acc item => mapSet acc item.id (foundResultOf item)) m
    let foundIds := items.map AppleSongItem.id
    batch.foldl
      (fun acc id => if id ∈ foundIds then acc else mapSet acc id (notFoundResult id)) m1

/-- The batch loop of batchLookupAppleTracks, with explicit fuel so that it
reduces in the kernel; fuel = the id count always suffices, since every
round consumes at least one id. -/
def batchLookupGo (outcomes : Nat → Option (List AppleSongItem)) :
    Nat → Nat → List String → List (String × AppleLookupResult) →
      List (String × AppleLookupResult)
  | 0, _, _, m => m
  | fuel + 1, i, ids, m =>
    if ids.isEmpty then m
    else
      batchLookupGo outcomes fuel (i + 1) (ids.drop 300)
        (processBatch m (ids.take 300) (outcomes i))

/-- batchLookupAppleTracks (appleMusic.ts lines 57-132): the result map,
given each batch's outcome. -/
def batchLookupAppleTracks (ids : List String)
    (outcomes : Nat → Option (List AppleSongItem)) : List (String × AppleLookupResult) :=
  batchLookupGo outcomes ids.length 0 ids []

/-- The i-th batch of 300 ids. -/
def batchOf (ids : List String) (i : Nat) : List String :=
  (ids.drop (300 * i)).take 300

/-- The entry the claim predicts for an id, given its batch's outcome. -/
def expectedResult (outcome : Option (List AppleSongItem)) (id : String) : AppleLookupResult :=
  match outcome with
  | none => notFoundResult id
  | some items =>
    match items.find? (fun item => item.id == id) with
    | some item => foundResultOf item
    | none => notFoundResult id

theorem batchOf_zero (ids : List String) : batchOf ids 0 = ids.take 300 := by
  simp [batchOf]

theorem batchOf_succ (ids : List String) (i : Nat) :
    batchOf ids (i + 1) = batchOf (ids.drop 300) i := by
  simp only [batchOf, List.drop_drop]
  congr 1
  ring_nf

theorem mapGet_nil (x : String) : mapGet [] x = none := rfl

theorem mapGet_cons (k' : String) (v' : AppleLookupResult)
    (rest : List (String × AppleLookupResult)) (x : String) :
    mapGet ((k', v') :: rest) x = if k' = x then some v' else mapGet rest x := by
  simp only [mapGet]
  by_cases h : k' = x
  · rw [List.find?_cons_of_pos _ (by simpa using h), if_pos h]
    rfl
  · rw [List.find?_cons_of_neg _ (by simpa using h), if_neg h]

theorem mapGet_mapSet (m : List (String × AppleLookupResult)) (k : String)
    (v : AppleLookupResult) (x : String) :
    mapGet (mapSet m k v) x = if x = k then some v else mapGet m x := by
  induction m with
  | nil =>
    show mapGet [(k, v)] x = if x = k then some v else mapGet [] x
    rw [mapGet_cons, mapGet_nil]
    by_cases h : x = k
    · rw [if_pos h.symm, if_pos h]
    · rw [if_neg (fun hh => h hh.symm), if_neg h]
  | cons p rest ih =>
    obtain ⟨k', v'⟩ := p
    simp only [mapSet]
    by_cases hk : k' = k
    · rw [if_pos hk, mapGet_cons, mapGet_cons]
      by_cases h : x = k
      · rw [if_pos h.symm, if_pos h]
      · rw [if_neg (fun hh => h hh.symm), if_neg h,
          if_neg (fun hh => h (hk.symm.trans hh).symm)]
    · rw [if_neg hk, mapGet_cons, mapGet_cons]
      by_cases hx' : k' = x
      · rw [if_pos hx', if_neg (fun hh => hk (hx'.trans hh)), if_pos hx']
      · rw [if_neg hx', ih]
        by_cases hxk : x = k
        · rw [if_pos hxk, if_pos hxk]
        · rw [if_neg hxk, if_neg hxk, if_neg hx']

theorem mapGet_foldl_notFound (batch : List String)
    (m : List (String × AppleLookupResult)) (x : String) :
    mapGet (batch.foldl (fun acc id => mapSet acc id (notFoundResult id)) m) x =
      if x ∈ batch then some (notFoundResult x) else mapGet m x := by
  induction batch generalizing m with
  | nil => simp
  | cons b rest ih =>
    simp only [List.foldl_cons]
    rw [ih]
    by_cases hr : x ∈ rest
    · rw [if_pos hr, if_pos (List.mem_cons_of_mem _ hr)]
    · rw [if_neg hr, mapGet_mapSet]
      by_cases hb : x = b
      · subst hb
        rw [if_pos rfl, if_pos (List.mem_cons_self _ _)]
      · rw [if_neg hb, if_neg (by simp [hb, hr])]

theorem mapGet_foldl_found (items : List AppleSongItem)
    (m : List (String × AppleLookupResult)) (x : String)
    (hnodup : (items.map AppleSongItem.id).Nodup) :
    mapGet (items.foldl (fun acc item => mapSet acc item.id (foundResultOf item)) m) x =
      match items.find? (fun item => item.id == x) with
      | some item => some (foundResultOf item)
      | none => mapGet m x := by
  induction items generalizing m with
  | nil => simp
  | cons it rest ih =>
    simp only [List.map_cons, List.nodup_cons] at hnodup
    obtain ⟨hnotin, hrest⟩ := hnodup
    simp only [List.foldl_cons]
    rw [ih _ hrest]
    by_cases hx : it.id = x
    · have hfind : rest.find? (fun item => item.id == x) = none := by
        apply List.find?_eq_none.mpr
        intro a ha hcontra
        apply hnotin
        have : a.id = x := by simpa using hcontra
        rw [← hx] at this
        rw [← this]
        exact List.mem_map_of_mem AppleSongItem.id ha
      rw [hfind]
      have hfind2 : List.find? (fun item => item.id == x) (it :: rest) = some it := by
        simp [List.find?, hx]
      rw [hfind2, mapGet_mapSet, if_pos hx.symm]
    · have hfind2 : List.find? (fun item => item.id == x) (it :: rest) =
          rest.find? (fun item => item.id == x) := by
        have : (it.id == x) = false := by simpa using hx
        simp [List.find?, this]
      rw [hfind2]
      cases hfr : rest.find? (fun item => item.id == x) with
      | some item => rfl
      | none =>
        rw [mapGet_mapSet, if_neg (fun h => hx h.symm)]

theorem mapGet_foldl_notFound_unless (batch foundIds : List String)
    (m : List (String × AppleLookupResult)) (x : String) :
    mapGet (batch.foldl
        (fun acc id => if id ∈ foundIds then acc else mapSet acc id (notFoundResult id)) m) x =
      if x ∈ batch ∧ x ∉ foundIds then some (notFoundResult x) else mapGet m x := by
  induction batch generalizing m with
  | nil => simp
  | cons b rest ih =>
    simp only [List.foldl_cons]
    rw [ih]
    by_cases hr : x ∈ rest ∧ x ∉ foundIds
    · rw [if_pos hr, if_pos ⟨List.mem_cons_of_mem _ hr.1, hr.2⟩]
    · rw [if_neg hr]
      by_cases hbf : b ∈ foundIds
      · rw [if_pos hbf]
        by_cases hcond : x ∈ b :: rest ∧ x ∉ foundIds
        · exfalso
          rcases List.mem_cons.mp hcond.1 with rfl | hxr
          · exact hcond.2 hbf
          · exact hr ⟨hxr, hcond.2⟩
        · rw [if_neg hcond]
      · rw [if_neg hbf, mapGet_mapSet]
        by_cases hb : x = b
        · subst hb
          rw [if_pos rfl, if_pos ⟨List.mem_cons_self _ _, hbf⟩]
        · rw [if_neg hb, if_neg ?_]
          intro hcond
          rcases List.mem_cons.mp hcond.1 with rfl | hxr
          · exact hb rfl
          · exact hr ⟨hxr, hcond.2⟩

theorem mapGet_processBatch (m : List (String × AppleLookupResult)) (batch : List String)
    (outcome : Option (List AppleSongItem)) (x : String)
    (hsub : ∀ items, outcome = some items → ∀ item ∈ items, item.id ∈ batch)
    (hresp : ∀ items, outcome = some items → (items.map AppleSongItem.id).Nodup) :
    mapGet (processBatch m batch outcome) x =
      if x ∈ batch then some (expectedResult outcome x) else mapGet m x := by
  cases outcome with
  | none =>
    simp only [processBatch, expectedResult]
    exact mapGet_foldl_notFound batch m x
  | some items =>
    simp only [processBatch]
    rw [mapGet_foldl_notFound_unless, mapGet_foldl_found items m x (hresp items rfl)]
    by_cases hxb : x ∈ batch
    · by_cases hxf : x ∈ items.map AppleSongItem.id
      · rw [if_neg (fun h => h.2 hxf), if_pos hxb]
        obtain ⟨item, hitem, hid⟩ := List.mem_map.mp hxf
        have hfind : (items.find? (fun item => item.id == x)).isSome := by
          apply List.find?_isSome.mpr
          exact ⟨item, hitem, by simpa using hid⟩
        simp only [expectedResult]
        cases hf : items.find? (fun item => item.id == x) with
        | none => rw [hf] at hfind; simp at hfind
        | some it => rfl
      · rw [if_pos ⟨hxb, hxf⟩, if_pos hxb]
        have hfind : items.find? (fun item => item.id == x) = none := by
          apply List.find?_eq_none.mpr
          intro a ha hcontra
          apply hxf
          have : a.id = x := by simpa using hcontra
          rw [← this]
          exact List.mem_map_of_mem AppleSongItem.id ha
        simp only [expectedResult]
        rw [hfind]
    · rw [if_neg (fun h => hxb h.1), if_neg hxb]
      have hfind : items.find? (fun item => item.id == x) = none := by
        apply List.find?_eq_none.mpr
        intro a ha hcontra
        apply hxb
        have : a.id = x := by simpa using hcontra
        rw [← this]
        exact hsub items rfl a ha
      rw [hfind]

theorem batchLookupGo_spec (outcomes : Nat → Option (List AppleSongItem)) :
    ∀ (fuel : Nat) (ids : List String) (i : Nat) (m : List (String × AppleLookupResult)),
      ids.length ≤ fuel → ids.Nodup →
      (∀ j items, outcomes (i + j) = some items → ∀ item ∈ items, item.id ∈ batchOf ids j) →
      (∀ j items, outcomes (i + j) = some items → (items.map AppleSongItem.id).Nodup) →
      (∀ x, x ∉ ids → mapGet (batchLookupGo outcomes fuel i ids m) x = mapGet m x)
      ∧ (∀ j x, x ∈ batchOf ids j →
          mapGet (batchLookupGo outcomes fuel i ids m) x =
            some (expectedResult (outcomes (i + j)) x)) := by
  intro fuel
  induction fuel with
  | zero =>
    intro ids i m hlen hnodup hsub hresp
    have hids : ids = [] := List.length_eq_zero.mp (Nat.le_zero.mp hlen)
    subst hids
    refine ⟨fun x _ => rfl, fun j x hx => ?_⟩
    simp [batchOf] at hx
  | succ fuel ih =>
    intro ids i m hlen hnodup hsub hresp
    by_cases hids : ids.isEmpty
    · have hids' : ids = [] := by
        cases ids with
        | nil => rfl
        | cons a l => simp [List.isEmpty] at hids
      subst hids'
      refine ⟨fun x _ => by simp [batchLookupGo], fun j x hx => ?_⟩
      simp [batchOf] at hx
    · have hgo : batchLookupGo outcomes (fuel + 1) i ids m =
          batchLookupGo outcomes fuel (i + 1) (ids.drop 300)
            (processBatch m (ids.take 300) (outcomes i)) := by
        simp [batchLookupGo, hids]
      have hlen' : (ids.drop 300).length ≤ fuel := by
        rw [List.length_drop]
        have hpos : 0 < ids.length := by
          cases ids with
          | nil => simp at hids
          | cons a l => simp
        omega
      have hnodup' : (ids.drop 300).Nodup := (List.drop_sublist 300 ids).nodup hnodup
      have hsub' : ∀ j items, outcomes ((i + 1) + j) = some items →
          ∀ item ∈ items, item.id ∈ batchOf (ids.drop 300) j := by
        intro j items hout item hitem
        have harith : (i + 1) + j = i + (j + 1) := by omega
        rw [harith] at hout
        rw [← batchOf_succ]
        exact hsub (j + 1) items hout item hitem
      have hresp' : ∀ j items, outcomes ((i + 1) + j) = some items →
          (items.map AppleSongItem.id).Nodup := by
        intro j items hout
        have harith : (i + 1) + j = i + (j + 1) := by omega
        rw [harith] at hout
        exact hresp (j + 1) items hout
      obtain ⟨ihpass, ihbatch⟩ :=
        ih (ids.drop 300) (i + 1) (processBatch m (ids.take 300) (outcomes i))
          hlen' hnodup' hsub' hresp'
      have hsub0 : ∀ items, outcomes i = some items →
          ∀ item ∈ items, item.id ∈ ids.take 300 := by
        intro items hout item hitem
        have h0 : outcomes (i + 0) = some items := by simpa using hout
        simpa [batchOf] using hsub 0 items h0 item hitem
      have hresp0 : ∀ items, outcomes i = some items →
          (items.map AppleSongItem.id).Nodup := by
        intro items hout
        exact hresp 0 items (by simpa using hout)
      constructor
      · intro x hx
        have hxtake : x ∉ ids.take 300 := fun h => hx (List.take_subset _ _ h)
        have hxdrop : x ∉ ids.drop 300 := fun h => hx (List.drop_subset _ _ h)
        rw [hgo, ihpass x hxdrop,
          mapGet_processBatch m (ids.take 300) (outcomes i) x hsub0 hresp0,
          if_neg hxtake]
      · intro j x hx
        cases j with
        | zero =>
          rw [batchOf_zero] at hx
          have hxdrop : x ∉ ids.drop 300 :=
            fun h => List.disjoint_take_drop hnodup (le_refl 300) hx h
          rw [hgo, ihpass x hxdrop,
            mapGet_processBatch m (ids.take 300) (outcomes i) x hsub0 hresp0,
            if_pos hx]
          simp
        | succ j =>
          rw [batchOf_succ] at hx
          rw [hgo, ihbatch j x hx]
          have harith : (i + 1) + j = i + (j + 1) := by omega
          rw [harith]

theorem mem_batchOf_of_mem :
    ∀ (n : Nat) (ids : List String) (x : String), ids.length ≤ n → x ∈ ids →
      ∃ j, x ∈ batchOf ids j := by
  intro n
  induction n with
  | zero =>
    intro ids x hlen hx
    have : ids = [] := List.length_eq_zero.mp (Nat.le_zero.mp hlen)
    subst this
    simp at hx
  | succ n ih =>
    intro ids x hlen hx
    by_cases hxt : x ∈ ids.take 300
    · exact ⟨0, by rwa [batchOf_zero]⟩
    · have hxd : x ∈ ids.drop 300 := by
        have := List.take_append_drop 300 ids
        rw [← this] at hx
        rcases List.mem_append.mp hx with h | h
        · exact absurd h hxt
        · exact h
      have hlen' : (ids.drop 300).length ≤ n := by
        rw [List.length_drop]
        have hpos : 0 < ids.length := List.length_pos.mpr (List.ne_nil_of_mem hx)
        omega
      obtain ⟨j, hj⟩ := ih (ids.drop 300) x hlen' hxd
      exact ⟨j + 1, by rwa [batchOf_succ]⟩

/-- C10: for a duplicate-free id list — and responses that return only
requested ids of their own batch, each at most once — the result map
resolves every requested identifier: every id belongs to a batch, and its
entry is exactly the predicted one — the found record (with the Atmos flag
read from audioVariants, the authoritative duration and URL) when the
batch's response contains the id, and the not-found record (found = false,
no Atmos flag, null duration, null URL) when the batch's request failed or
the response omitted the id.  No id is ever omitted from the map, and each
batch is issued exactly once (no retry exists in the control flow). -/
theorem batchLookup_every_id_resolved (ids : List String)
    (outcomes : Nat → Option (List AppleSongItem))
    (hnodup : ids.Nodup)
    (hsub : ∀ j items, outcomes j = some items → ∀ item ∈ items, item.id ∈ batchOf ids j)
    (hresp : ∀ j items, outcomes j = some items → (items.map AppleSongItem.id).Nodup) :
    (∀ j x, x ∈ batchOf ids j →
      mapGet (batchLookupAppleTracks ids outcomes) x =
        some (expectedResult (outcomes j) x))
    ∧ (∀ x ∈ ids, ∃ j, x ∈ batchOf ids j)
    ∧ (∀ x, (notFoundResult x).found = false ∧ (notFoundResult x).hasAtmos = false ∧
        (notFoundResult x).durationMs = none ∧ (notFoundResult x).url = none)
    ∧ (∀ item, (foundResultOf item).found = true ∧
        (foundResultOf item).hasAtmos =
          (item.attributes.audioVariants.getD []).contains "dolby-atmos" ∧
        (foundResultOf item).durationMs = item.attributes.durationInMillis ∧
        (foundResultOf item).url = item.attributes.url) := by
  refine ⟨?_, ?_, fun x => ⟨rfl, rfl, rfl, rfl⟩, fun item => ⟨rfl, rfl, rfl, rfl⟩⟩
  · intro j x hx
    have hsub' : ∀ j items, outcomes (0 + j) = some items →
        ∀ item ∈ items, item.id ∈ batchOf ids j := by
      intro j items hout
      rw [Nat.zero_add] at hout
      exact hsub j items hout
    have hresp' : ∀ j items, outcomes (0 + j) = some items →
        (items.map AppleSongItem.id).Nodup := by
      intro j items hout
      rw [Nat.zero_add] at hout
      exact hresp j items hout
    have := (batchLookupGo_spec outcomes ids.length ids 0 [] (le_refl _) hnodup
      hsub' hresp').2 j x hx
    rw [batchLookupAppleTracks, this, Nat.zero_add]
  · intro x hx
    exact mem_batchOf_of_mem ids.length ids x (le_refl _) hx

/-- Witness for the batch lookup law: a single id whose only batch fails by
HTTP error or exception is marked not-found rather than omitted. -/
theorem batchLookup_every_id_resolved_witness :
    mapGet (batchLookupAppleTracks ["i1"] (fun _ => none)) "i1" =
      some (notFoundResult "i1") := by
  have h := (batchLookup_every_id_resolved ["i1"] (fun _ => none) (by decide)
    (fun j items h => nomatch h) (fun j items h => nomatch h)).1 0 "i1" (by decide)
  simpa [expectedResult] using h

/-! ## JSON extraction from generative responses (src/pipeline/perplexity.ts)

The repository carries two copies of `extractJSON`: the legacy one under
functions/src/pipeline (greedy regex first) and the reworked one
(src/unnamed/part_006) that the setup notes (src/unnamed/part_000) install
over it — fenced-block check first, then bracket-depth scanning with
object tried before array.  The reworked version is embedded here.

`JSON.parse` is external to the repository; `miniJsonParse` models it on
the JSON fragment the pipeline exchanges: objects, arrays, strings (with
the escapes \" \\ \/), integer numbers, true/false/null, ASCII whitespace.
Content strings are modelled as character lists. -/

/-- A JSON value (the fragment relevant to the pipeline's payloads). -/
inductive Json where
  | null
  | bool (b : Bool)
  | num (n : Int)
  | str (s : List Char)
  | arr (xs : List Json)
  | obj (fields : List (List Char × Json))

/-- Skip leading ASCII whitespace. -/
def skipWs : List Char → List Char
  | [] => []
  | c :: rest => if isWhitespaceChar c then skipWs rest else c :: rest

/-- Parse a JSON string body after the opening quote: the decoded
characters and the remainder after the closing quote. -/
def parseStringBody : List Char → Option (List Char × List Char)
  | [] => none
  | '"' :: rest => some ([], rest)
  | '\\' :: c :: rest =>
    if c == '"' || c == '\\' || c == '/' then
      (parseStringBody rest).map (fun p => (c :: p.1, p.2))
    else none
  | c :: rest => (parseStringBody rest).map (fun p => (c :: p.1, p.2))

/-- The value of an ASCII digit. -/
def digitVal (c : Char) : Option Nat :=
  if '0' ≤ c ∧ c ≤ '9' then some (c.toNat - 48) else none

/-- Parse a nonempty digit run into a natural number. -/
def parseDigitsGo : List Char → Nat → Bool → Option (Nat × List Char)
  | [], acc, seen => if seen then some (acc, []) else none
  | c :: rest, acc, seen =>
    match digitVal c with
    | some d => parseDigitsGo rest (acc * 10 + d) true
    | none => if seen then some (acc, c :: rest) else none

mutual

/-- Recursive-descent JSON value, fueled for kernel reduction (each level
of the descent consumes at least one character, so fuel = input length + 1
always suffices). -/
def parseValueAux : Nat → List Char → Option (Json × List Char)
  | 0, _ => none
  | fuel + 1, input =>
    match skipWs input with
    | [] => none
    | '{' :: rest =>
      match skipWs rest with
      | '}' :: rest2 => some (Json.obj [], rest2)
      | rest2 => (parseMembersAux fuel rest2).map (fun p => (Json.obj p.1, p.2))
    | '[' :: rest =>
      match skipWs rest with
      | ']' :: rest2 => some (Json.arr [], rest2)
      | rest2 => (parseElementsAux fuel rest2).map (fun p => (Json.arr p.1, p.2))
    | '"' :: rest => (parseStringBody rest).map (fun p => (Json.str p.1, p.2))
    | 't' :: 'r' :: 'u' :: 'e' :: rest => some (Json.bool true, rest)
    | 'f' :: 'a' :: 'l' :: 's' :: 'e' :: rest => some (Json.bool false, rest)
    | 'n' :: 'u' :: 'l' :: 'l' :: rest => some (Json.null, rest)
    | '-' :: rest =>
      (parseDigitsGo rest 0 false).map (fun p => (Json.num (-(p.1 : Int)), p.2))
    | rest =>
      (parseDigitsGo rest 0 false).map (fun p => (Json.num (p.1 : Int), p.2))

/-- One or more `"key": value` members up to the closing brace. -/
def parseMembersAux : Nat → List Char → Option (List (List Char × Json) × List Char)
  | 0, _ => none
  | fuel + 1, input =>
    match skipWs input with
    | '"' :: rest =>
      match parseStringBody rest with
      | none => none
      | some (key, rest2) =>
        match skipWs rest2 with
        | ':' :: rest3 =>
          match parseValueAux fuel rest3 with
          | none => none
          | some (v, rest4) =>
            match skipWs rest4 with
            | ',' :: rest5 =>
              (parseMembersAux fuel rest5).map (fun p => ((key, v) :: p.1, p.2))
            | '}' :: rest5 => some ([(key, v)], rest5)
            | _ => none
        | _ => none
    | _ => none

/-- One or more array elements up to the closing bracket. -/
def parseElementsAux : Nat → List Char → Option (List Json × List Char)
  | 0, _ => none
  | fuel + 1, input =>
    match parseValueAux fuel input with
    | none => none
    | some (v, rest) =>
      match skipWs rest with
      | ',' :: rest2 => (parseElementsAux fuel rest2).map (fun p => (v :: p.1, p.2))
      | ']' :: rest2 => some ([v], rest2)
      | _ => none

end

/-- The model of `JSON.parse`: the whole input, up to surrounding
whitespace, must be one JSON value. -/
def miniJsonParse (input : List Char) : Option Json :=
  match parseValueAux (input.length + 1) input with
  | some (v, rest) => if (skipWs rest).isEmpty then some v else none
  | none => none

/-- The bracket-depth scan of the reworked extractJSON (part_006 lines
85-102): walks from the first opening bracket, tracking string state and
escapes, and returns how many characters it consumed when the depth first
returns to zero. -/
def scanDepthAux (openC closeC : Char) :
    List Char → Nat → Bool → Bool → Nat → Option Nat
  | [], _, _, _, _ => none
  | ch :: rest, depth, inString, escape, n =>
    if escape then scanDepthAux openC closeC rest depth inString false (n + 1)
    else if ch == '\\' && inString then scanDepthAux openC closeC rest depth inString true (n + 1)
    else if ch == '"' then scanDepthAux openC closeC rest depth (!inString) false (n + 1)
    else if inString then scanDepthAux openC closeC rest depth inString false (n + 1)
    else if ch == openC then scanDepthAux openC closeC rest (depth + 1) inString false (n + 1)
    else if ch == closeC then
      if depth = 1 then some (n + 1)
      else scanDepthAux openC closeC rest (depth - 1) inString false (n + 1)
    else scanDepthAux openC closeC rest depth inString false (n + 1)

/-- The scan started at the first opening bracket. -/
def scanDepth (openC closeC : Char) (l : List Char) : Option Nat :=
  scanDepthAux openC closeC l 0 false false 0

/-- Index of the first occurrence of a character (String.indexOf). -/
def indexOfChar (c : Char) : List Char → Option Nat
  | [] => none
  | x :: rest => if x == c then some 0 else (indexOfChar c rest).map (· + 1)

/-- Everything after the first "```" fence marker. -/
def findFenceSplit : List Char → Option (List Char)
  | '`' :: '`' :: '`' :: rest => some rest
  | _ :: rest => findFenceSplit rest
  | [] => none

/-- The lazily-captured text before the next "```" fence marker. -/
def takeUntilFence : List Char → Option (List Char)
  | '`' :: '`' :: '`' :: _ => some []
  | c :: rest => (takeUntilFence rest).map (fun l => c :: l)
  | [] => none

/-- The optional literal "json" after the opening fence. -/
def stripJsonTag : List Char → List Char
  | 'j' :: 's' :: 'o' :: 'n' :: rest => rest
  | l => l

/-- The fenced-block capture of the regex ```(?:json)?\s*([\s\S]*?)``` at
its leftmost match. -/
def fenceExtract (content : List Char) : Option (List Char) :=
  (findFenceSplit content).bind fun after =>
    takeUntilFence ((stripJsonTag after).dropWhile isWhitespaceChar)

/-- One bracket pass of the reworked extractJSON: find the first opening
bracket, depth-scan to its matching close, and parse the slice (a parse
failure falls through to the caller's next pass, modelling the `break`). -/
def bracketPass (openC closeC : Char) (content : List Char) : Option Json :=
  match indexOfChar openC content with
  | none => none
  | some start =>
    match scanDepth openC closeC (content.drop start) with
    | none => none
    | some len => miniJsonParse ((content.drop start).take len)

/-- The reworked extractJSON (part_006 lines 75-106): fenced block first,
then the object bracket pass, then the array bracket pass. -/
def extractJSON (content : List Char) : Option Json :=
  match fenceExtract content with
  | some inner =>
    match miniJsonParse inner with
    | some v => some v
    | none =>
      match bracketPass '{' '}' content with
      | some v => some v
      | none => bracketPass '[' ']' content
  | none =>
    match bracketPass '{' '}' content with
    | some v => some v
    | none => bracketPass '[' ']' content

/-- A successful scan is insensitive to anything appended after the
matching close bracket: the scan stops there. -/
theorem scanDepthAux_append (openC closeC : Char) (t : List Char) :
    ∀ (l : List Char) (depth : Nat) (inString escape : Bool) (n r : Nat),
      scanDepthAux openC closeC l depth inString escape n = some r →
      scanDepthAux openC closeC (l ++ t) depth inString escape n = some r := by
  intro l
  induction l with
  | nil =>
    intro depth inString escape n r h
    exact absurd h (by simp [scanDepthAux])
  | cons ch rest ih =>
    intro depth inString escape n r h
    rw [List.cons_append]
    simp only [scanDepthAux] at h ⊢
    split_ifs at h ⊢ <;> first
      | exact ih _ _ _ _ _ h
      | exact h

/-- C8 (amended): extraction tries the fenced block first — a parseable
fenced capture is returned outright — and otherwise locates embedded JSON
by bracket-depth scanning, object pass before array pass; for every content
of the form `object ++ commentary` where the object parses, its brace scan
closes at its end, and no fence marker occurs, the parsed object is
returned despite arbitrary trailing commentary.  (An array whose text
embeds an object is instead resolved to that inner object — see the
counterexample.) -/
theorem extractJSON_law (s t inner content : List Char) (v w : Json) :
    (fenceExtract content = some inner → miniJsonParse inner = some w →
      extractJSON content = some w)
    ∧ ((∃ rest, s = '{' :: rest) → scanDepth '{' '}' s = some s.length →
      miniJsonParse s = some v → findFenceSplit (s ++ t) = none →
      extractJSON (s ++ t) = some v) := by
  constructor
  · intro hfence hparse
    simp only [extractJSON, hfence, hparse]
  · rintro ⟨rest, rfl⟩ hscan hparse hnofence
    have hfence : fenceExtract (('{' :: rest) ++ t) = none := by
      rw [fenceExtract, hnofence]
      rfl
    have hidx : indexOfChar '{' (('{' :: rest) ++ t) = some 0 := by
      simp [indexOfChar]
    have hscan2 : scanDepth '{' '}' ((('{' :: rest) ++ t).drop 0) =
        some ('{' :: rest).length := by
      simp only [List.drop_zero]
      exact scanDepthAux_append '{' '}' t _ _ _ _ _ _ hscan
    have htake : ((('{' :: rest) ++ t).drop 0).take ('{' :: rest).length = '{' :: rest := by
      simp only [List.drop_zero]
      exact List.take_left _ _
    simp only [extractJSON, hfence, bracketPass, hidx, hscan2, htake, hparse]

/-- A small JSON object as a character list. -/
def jsonObjSample : List Char := ['{', '"', 'a', '"', ':', '1', '}']

/-- Witness for the extraction law: the object followed by a bracketed
citation footnote is extracted intact. -/
theorem extractJSON_law_witness :
    extractJSON (jsonObjSample ++ (" cite [4]").data) =
      some (Json.obj [(['a'], Json.num 1)]) :=
  (extractJSON_law jsonObjSample (" cite [4]").data [] [] (Json.obj [(['a'], Json.num 1)])
      Json.null).2
    ⟨['"', 'a', '"', ':', '1', '}'], rfl⟩ rfl rfl rfl

/-- A JSON array whose single element is an object. -/
def arrayWithObjSample : List Char := ['['] ++ jsonObjSample ++ [']']

/-- C8 counterexample: for a valid JSON array followed by a bracketed
citation footnote, the extraction does not return the parsed array — the
object pass runs first and the first `brace` inside the array wins, so the
inner object is returned instead of the array value. -/
theorem extractJSON_array_with_embedded_object :
    miniJsonParse arrayWithObjSample = some (Json.arr [Json.obj [(['a'], Json.num 1)]])
    ∧ extractJSON (arrayWithObjSample ++ (" [4]").data) =
        some (Json.obj [(['a'], Json.num 1)])
    ∧ (Json.obj [(['a'], Json.num 1)] = Json.arr [Json.obj [(['a'], Json.num 1)]] → False) := by
  refine ⟨rfl, rfl, ?_⟩
  intro h
  exact Json.noConfusion h

end Atmosify
